import Mathlib

/-
Mantissa truncation and the three-layer network of WINLAB/mlp.go.

A float64 is modelled by its IEEE-754 bit pattern, a natural number below 2^64
(what math.Float64bits returns).  The global numBits is threaded as an explicit
argument.  The floating-point arithmetic of the Go runtime and of gonum (rounded
sums, products, quotients, math.Exp, the accumulation inside a matrix product) is
a parameter of the network functions.
-/

namespace Mlp

/-! ## Bit patterns -/

/-- Sign bit of a 64-bit pattern. -/
def signBit (b : Nat) : Nat := b / 2 ^ 63

/-- Biased exponent field (11 bits) of a 64-bit pattern. -/
def expField (b : Nat) : Nat := (b / 2 ^ 52) % 2 ^ 11

/-- Stored significand (52 bits) of a 64-bit pattern. -/
def mantField (b : Nat) : Nat := b % 2 ^ 52

/-- Unbiased exponent of a pattern, the exponent field minus 1023. -/
def unbExp (b : Nat) : Int := (expField b : Int) - 1023

/-- The float comparison a < 0: the sign bit is set and a is neither a NaN nor -0. -/
def fltLtZero (b : Nat) : Bool :=
  decide (signBit b = 1) && !(decide (expField b = 2047) && decide (mantField b ≠ 0))
    && !(decide (b = 2 ^ 63))

/-- The float comparison a > 0: the sign bit is clear and a is neither a NaN nor +0. -/
def fltGtZero (b : Nat) : Bool :=
  decide (signBit b = 0) && !(decide (expField b = 2047) && decide (mantField b ≠ 0))
    && !(decide (b = 0))

/-- The float negation -a: the sign bit is flipped. -/
def fneg (b : Nat) : Nat := if b < 2 ^ 63 then b + 2 ^ 63 else b - 2 ^ 63

/-- The conversion int64(n) of a uint64. -/
def toInt64 (n : Nat) : Int := if n < 2 ^ 63 then (n : Int) else (n : Int) - 2 ^ 64

/-- The conversion uint64(z) of an int64 (it also absorbs the wrap of the subtraction). -/
def toUint64 (z : Int) : Nat := (z % 2 ^ 64).toNat

/-- The function getBitMask: 0xffffffffffffffff << n on uint64; a count of 64 or more
gives 0. -/
def getBitMask (n : Nat) : Nat :=
  if n < 64 then (0xffffffffffffffff <<< n) % 2 ^ 64 else 0

/-- The function truncateM, with the global numBits as first argument. -/
def truncateM (numBits : Nat) (a0 : Nat) : Nat :=
  let isNegative := fltLtZero a0
  let a := if isNegative then fneg a0 else a0
  let i := a
  let mantissa := ((i &&& 0xfffffffffffff) + 0x10000000000000) % 2 ^ 64
  let originalExponent := i >>> 52
  if originalExponent = 0 then 0
  else
    let exponent : Int := (originalExponent : Int) - 1023
    if exponent ≥ toInt64 numBits then
      if isNegative then fneg a else a
    else
      let realNumBits := toUint64 (toInt64 numBits - exponent)
      let bitMask := getBitMask realNumBits
      let mantissa := mantissa &&& bitMask
      let truncated := ((originalExponent <<< 52) % 2 ^ 64 + (mantissa &&& 0xfffffffffffff)) % 2 ^ 64
      let truncated := if isNegative then (1 <<< 63 + truncated) % 2 ^ 64 else truncated
      truncated

/-- The value a holds after the sign has been stripped (if isNegative, a = -a). -/
def absBits (x : Nat) : Nat := if fltLtZero x then fneg x else x

/-- The local originalExponent of truncateM: the top 12 bits of the stripped pattern. -/
def rawExp (x : Nat) : Nat := absBits x / 2 ^ 52

/-- The local realNumBits of truncateM, as an unbounded integer difference. -/
def dropCount (numBits x : Nat) : Nat := (toInt64 numBits - ((rawExp x : Int) - 1023)).toNat

/-- Exact value of a pattern whose exponent field is not 2047, as a rational. -/
def toRat (b : Nat) : ℚ :=
  (if signBit b = 1 then -1 else 1) *
    (if expField b = 0 then (mantField b : ℚ) * 2 ^ (-1074 : ℤ)
     else ((2 ^ 52 + mantField b : Nat) : ℚ) * 2 ^ ((expField b : ℤ) - 1075))

/-- Reading of the specification: y keeps the top bits significand bits of x, the implicit
bit included, and every lower significand bit of y is zero. -/
def keepsTopBits (bits x y : Nat) : Prop :=
  2 ^ 52 + mantField y = (2 ^ 52 + mantField x) / 2 ^ (53 - bits) * 2 ^ (53 - bits)

/-! ## Matrices (gonum mat.Dense) -/

/-- The panics of gonum/mat that the network code can reach. -/
inductive MatErr where
  | ErrShape
  | ErrZeroLength
  deriving DecidableEq

/-- A mat.Dense: dimensions and row-major backing data. -/
structure Dense where
  rows : Nat
  cols : Nat
  data : List Nat
  deriving DecidableEq

/-- Well-formed matrix: positive dimensions and rows * cols backing values. -/
def Dense.WF (m : Dense) : Prop :=
  m.rows ≠ 0 ∧ m.cols ≠ 0 ∧ m.data.length = m.rows * m.cols

/-- Modelled from the spec: the gonum accessor At is not in src; entry (i, j) of a
rectangular grid of doubles, read from the row-major backing data. -/
def Dense.At (m : Dense) (i j : Nat) : Nat := m.data.getD (i * m.cols + j) 0

/-- Modelled from the spec: the gonum method Set is not in src; in-place store of
entry (i, j). -/
def Dense.Set (m : Dense) (i j v : Nat) : Dense :=
  { m with data := m.data.set (i * m.cols + j) v }

/-- Row i of a matrix. -/
def Dense.row (m : Dense) (i : Nat) : List Nat := (List.range m.cols).map (fun j => m.At i j)

/-- Column j of a matrix. -/
def Dense.col (m : Dense) (j : Nat) : List Nat := (List.range m.rows).map (fun i => m.At i j)

/-- The r x c matrix whose entry (i, j) is f i j, filled in row-major order. -/
def Dense.tabulate (r c : Nat) (f : Nat → Nat → Nat) : Dense :=
  { rows := r, cols := c, data := (List.range (r * c)).map (fun idx => f (idx / c) (idx % c)) }

/-- Modelled from the spec: the gonum method T is not in src; the transpose of m. -/
def Dense.T (m : Dense) : Dense := Dense.tabulate m.cols m.rows (fun i j => m.At j i)

/-- Modelled from the spec: the gonum constructor mat.NewDense(r, c, data) is not in src;
a newly allocated r x c matrix, zero-filled when data is nil (none), backed by data
otherwise; a zero dimension or a data length other than r * c is a failure. -/
def NewDense (r c : Nat) (data : Option (List Nat)) : Except MatErr Dense :=
  if r = 0 ∨ c = 0 then .error .ErrZeroLength
  else
    match data with
    | none => .ok { rows := r, cols := c, data := List.replicate (r * c) 0 }
    | some d => if r * c ≠ d.length then .error .ErrShape
                else .ok { rows := r, cols := c, data := d }

/-- Modelled from the spec: the receiver check of the gonum methods is not in src; a
receiver allocated with another shape than the result is a shape mismatch. -/
def reuseAs (o : Dense) (r c : Nat) : Except MatErr Unit :=
  if o.rows = r ∧ o.cols = c then .ok () else .error .ErrShape

/-- Floating-point primitives on bit patterns: the rounded +, -, *, / of float64,
math.Exp, and the accumulation gonum performs for one entry of a matrix product. -/
structure FloatOps where
  add : Nat → Nat → Nat
  sub : Nat → Nat → Nat
  mul : Nat → Nat → Nat
  div : Nat → Nat → Nat
  exp : Nat → Nat
  dotProd : List Nat → List Nat → Nat

/-- The float64 constant 1. -/
def fOne : Nat := 0x3FF0000000000000

/-- The float64 constant -1. -/
def fNegOne : Nat := 0xBFF0000000000000

/-- Modelled from the spec: the gonum method o.Product(m, n) is not in src; on an m x k and
a k x n matrix it yields the m x n product, and mismatched inner dimensions fail with a
shape mismatch (never a padded or broadcast result). -/
def Dense.Product (F : FloatOps) (o m n : Dense) : Except MatErr Dense := do
  if m.cols ≠ n.rows then throw .ErrShape
  reuseAs o m.rows n.cols
  return Dense.tabulate m.rows n.cols (fun i j => F.dotProd (m.row i) (n.col j))

/-- Modelled from the spec: the gonum method o.Apply(fn, m) is not in src; elementwise
function application, the result having the shape of m. -/
def Dense.Apply (fn : Nat → Nat → Nat → Nat) (o m : Dense) : Except MatErr Dense := do
  reuseAs o m.rows m.cols
  return Dense.tabulate m.rows m.cols (fun i j => fn i j (m.At i j))

/-- Modelled from the spec: the gonum method o.Scale(s, m) is not in src; scalar scaling,
the result having the shape of m. -/
def Dense.Scale (F : FloatOps) (o : Dense) (s : Nat) (m : Dense) : Except MatErr Dense := do
  reuseAs o m.rows m.cols
  return Dense.tabulate m.rows m.cols (fun i j => F.mul s (m.At i j))

/-- Modelled from the spec: the gonum methods o.Add, o.Sub and o.MulElem are not in src;
elementwise combination by op of two matrices of the same shape, a dimension mismatch
being a shape-mismatch failure. -/
def Dense.Elem (op : Nat → Nat → Nat) (o m n : Dense) : Except MatErr Dense := do
  if m.rows ≠ n.rows ∨ m.cols ≠ n.cols then throw .ErrShape
  reuseAs o m.rows m.cols
  return Dense.tabulate m.rows m.cols (fun i j => op (m.At i j) (n.At i j))

/-! ## The helper functions of mlp.go -/

/-- The helper dot. -/
def dot (F : FloatOps) (m n : Dense) : Except MatErr Dense := do
  let r := m.rows
  let c := n.cols
  let o ← NewDense r c none
  Dense.Product F o m n

/-- The helper apply. -/
def apply (fn : Nat → Nat → Nat → Nat) (m : Dense) : Except MatErr Dense := do
  let o ← NewDense m.rows m.cols none
  Dense.Apply fn o m

/-- The helper scale. -/
def scale (F : FloatOps) (s : Nat) (m : Dense) : Except MatErr Dense := do
  let o ← NewDense m.rows m.cols none
  Dense.Scale F o s m

/-- The helper multiply. -/
def multiply (F : FloatOps) (m n : Dense) : Except MatErr Dense := do
  let o ← NewDense m.rows m.cols none
  Dense.Elem F.mul o m n

/-- The helper add. -/
def add (F : FloatOps) (m n : Dense) : Except MatErr Dense := do
  let o ← NewDense m.rows m.cols none
  Dense.Elem F.add o m n

/-- The helper subtract. -/
def subtract (F : FloatOps) (m n : Dense) : Except MatErr Dense := do
  let o ← NewDense m.rows m.cols none
  Dense.Elem F.sub o m n

/-- The activation sigmoid: 1.0 / (1 + math.Exp(-1*z)). -/
def sigmoid (F : FloatOps) (_r _c : Nat) (z : Nat) : Nat :=
  F.div fOne (F.add fOne (F.exp (F.mul fNegOne z)))

/-- The helper sigmoidPrime: m * (1 - m), elementwise. -/
def sigmoidPrime (F : FloatOps) (m : Dense) : Except MatErr Dense := do
  let rows := m.rows
  let o := List.replicate rows fOne
  let ones ← NewDense rows 1 (some o)
  let d ← subtract F ones m
  multiply F m d

/-- The procedure truncateMatrix: both loops, storing in place. -/
def truncateMatrix (numBits : Nat) (m : Dense) : Dense :=
  let rows := m.rows
  let columns := m.cols
  (List.range rows).foldl (fun acc r =>
    (List.range columns).foldl (fun acc c =>
      acc.Set r c (truncateM numBits (acc.At r c))) acc) m

/-- Loop invariant of truncateMatrix: the first n entries (row-major) have been replaced
by their images, the others are untouched. -/
def LoopInv (f : Nat → Nat) (l : List Nat) (C n : Nat) (acc : Dense) : Prop :=
  acc.cols = C ∧ acc.data.length = l.length ∧
    ∀ idx, idx < l.length →
      acc.data.getD idx 0 = if idx < n then f (l.getD idx 0) else l.getD idx 0

/-! ## The network -/

/-- The struct Network. -/
structure Network where
  inputs : Int
  hiddens : Int
  outputs : Int
  learningRate : Nat
  hiddenWeights : Dense
  outputWeights : Dense
  hidden_max : Nat
  hidden_min : Nat
  out_max : Nat
  out_min : Nat
  score : Int
  deriving DecidableEq

/-- The invariant CreateNetwork establishes: positive layer sizes, hiddenWeights is
hiddens x inputs and outputWeights is outputs x hiddens. -/
def Network.WF (net : Network) : Prop :=
  net.hiddenWeights.WF ∧ net.outputWeights.WF ∧
    (net.hiddenWeights.rows : Int) = net.hiddens ∧ (net.hiddenWeights.cols : Int) = net.inputs ∧
    (net.outputWeights.rows : Int) = net.outputs ∧ (net.outputWeights.cols : Int) = net.hiddens

/-- The method Predict. -/
def Network.Predict (F : FloatOps) (numBits : Nat) (net : Network) (inputData : List Nat) :
    Except MatErr Dense := do
  let inputs ← NewDense inputData.length 1 (some inputData)
  let hiddenInputs ← dot F net.hiddenWeights inputs
  let hiddenInputs := truncateMatrix numBits hiddenInputs
  let hiddenOutputs ← apply (sigmoid F) hiddenInputs
  let hiddenOutputs := truncateMatrix numBits hiddenOutputs
  let finalInputs ← dot F net.outputWeights hiddenOutputs
  let finalInputs := truncateMatrix numBits finalInputs
  let finalOutputs ← apply (sigmoid F) finalInputs
  let finalOutputs := truncateMatrix numBits finalOutputs
  return finalOutputs

/-- The method Train; the result is the network after the step. -/
def Network.Train (F : FloatOps) (numBits : Nat) (net : Network)
    (inputData targetData : List Nat) : Except MatErr Network := do
  -- feedforward
  let inputs ← NewDense inputData.length 1 (some inputData)
  let hiddenInputs ← dot F net.hiddenWeights inputs
  let hiddenOutputs ← apply (sigmoid F) hiddenInputs
  let finalInputs ← dot F net.outputWeights hiddenOutputs
  let finalOutputs ← apply (sigmoid F) finalInputs
  -- find errors
  let targets ← NewDense targetData.length 1 (some targetData)
  let outputErrors ← subtract F targets finalOutputs
  let hiddenErrors ← dot F net.outputWeights.T outputErrors
  let copy := outputErrors
  let _copy ← Dense.Elem F.mul copy copy outputErrors
  -- backpropagate
  let sp ← sigmoidPrime F finalOutputs
  let g ← multiply F outputErrors sp
  let d ← dot F g hiddenOutputs.T
  let s ← scale F net.learningRate d
  let outputWeights ← add F net.outputWeights s
  let sp ← sigmoidPrime F hiddenOutputs
  let g ← multiply F hiddenErrors sp
  let d ← dot F g inputs.T
  let s ← scale F net.learningRate d
  let hiddenWeights ← add F net.hiddenWeights s
  let outputWeights := truncateMatrix numBits outputWeights
  let hiddenWeights := truncateMatrix numBits hiddenWeights
  return { net with outputWeights := outputWeights, hiddenWeights := hiddenWeights }

/-! ## Closed forms the network functions are compared with -/

/-- Elementwise image of a matrix under f. -/
def Dense.mapD (f : Nat → Nat) (m : Dense) : Dense :=
  { rows := m.rows, cols := m.cols, data := m.data.map f }

/-- Elementwise combination of two matrices of the same shape. -/
def Dense.zipD (op : Nat → Nat → Nat) (m n : Dense) : Dense :=
  { rows := m.rows, cols := m.cols, data := List.zipWith op m.data n.data }

/-- Matrix product: entry (i, j) combines row i of m with column j of n. -/
def Dense.matMul (F : FloatOps) (m n : Dense) : Dense :=
  Dense.tabulate m.rows n.cols (fun i j => F.dotProd (m.row i) (n.col j))

/-- A slice seen as a column vector. -/
def colVec (x : List Nat) : Dense := { rows := x.length, cols := 1, data := x }

/-- The column vector of n ones. -/
def onesVec (n : Nat) : Dense := colVec (List.replicate n fOne)

/-- Specification of Predict: truncation after each of the four stages. -/
def predictSpec (F : FloatOps) (numBits : Nat) (net : Network) (x : List Nat) : Dense :=
  let T := Dense.mapD (truncateM numBits)
  let sig := Dense.mapD (sigmoid F 0 0)
  T (sig (T (Dense.matMul F net.outputWeights
    (T (sig (T (Dense.matMul F net.hiddenWeights (colVec x))))))))

/-- Specification of Train: untruncated forward pass, then the two truncated updates. -/
def trainSpec (F : FloatOps) (numBits : Nat) (net : Network) (x t : List Nat) : Network :=
  let T := Dense.mapD (truncateM numBits)
  let sig := Dense.mapD (sigmoid F 0 0)
  let Wh := net.hiddenWeights
  let Wo := net.outputWeights
  let h := sig (Dense.matMul F Wh (colVec x))
  let o := sig (Dense.matMul F Wo h)
  let e := Dense.zipD F.sub (colVec t) o
  let eh := Dense.matMul F Wo.T e
  let gradO := Dense.zipD F.mul e (Dense.zipD F.mul o (Dense.zipD F.sub (onesVec o.rows) o))
  let gradH := Dense.zipD F.mul eh (Dense.zipD F.mul h (Dense.zipD F.sub (onesVec h.rows) h))
  { net with
    outputWeights :=
      T (Dense.zipD F.add Wo (Dense.mapD (F.mul net.learningRate) (Dense.matMul F gradO h.T)))
    hiddenWeights :=
      T (Dense.zipD F.add Wh
        (Dense.mapD (F.mul net.learningRate) (Dense.matMul F gradH (colVec x).T))) }

/-- A small instance of the float primitives (wrapping integer arithmetic), used to
evaluate the network functions on concrete inputs. -/
def toyOps : FloatOps where
  add := fun a b => (a + b) % 2 ^ 64
  sub := fun a b => (a + (2 ^ 64 - b % 2 ^ 64)) % 2 ^ 64
  mul := fun a b => (a * b) % 2 ^ 64
  div := fun a b => (a / (b + 1)) % 2 ^ 64
  exp := fun a => a % 2 ^ 64
  dotProd := fun r c => (List.sum (List.zipWith (fun a b => a * b) r c)) % 2 ^ 64

/-- A 2-input, 2-hidden, 1-output network with all weights 0.5 and learning rate 0.1. -/
def toyNet : Network where
  inputs := 2
  hiddens := 2
  outputs := 1
  learningRate := 0x3FB999999999999A
  hiddenWeights :=
    { rows := 2, cols := 2,
      data := [0x3FE0000000000000, 0x3FE0000000000000, 0x3FE0000000000000, 0x3FE0000000000000] }
  outputWeights := { rows := 1, cols := 2, data := [0x3FE0000000000000, 0x3FE0000000000000] }
  hidden_max := 0x3FE0000000000000
  hidden_min := 0x3FE0000000000000
  out_max := 0x3FE0000000000000
  out_min := 0x3FE0000000000000
  score := 0

/-! ## Image input and class selection -/

/-- The normalisation dataFromImage applies to one pixel byte p, in exact rational
arithmetic: (float64(255 - p) / 255.0 * 0.999) + 0.001. -/
def pixelValue (p : Nat) : ℚ := ((255 - p : Nat) : ℚ) / 255 * (999 / 1000) + 1 / 1000

/-- The pixel loop of dataFromImage over the bytes of gray.Pix. -/
def dataFromImage (pix : List Nat) : List ℚ := pix.map pixelValue

/-- A pattern is a NaN. -/
def fltIsNaN (b : Nat) : Bool := decide (expField b = 2047) && decide (mantField b ≠ 0)

/-- Order key of a pattern that is not a NaN: float comparison is comparison of keys
(both zeros have key 0). -/
def fltKey (b : Nat) : Int := if signBit b = 1 then -((b : Int) - 2 ^ 63) else (b : Int)

/-- The float comparison a > b. -/
def fltGt (a b : Nat) : Bool := !fltIsNaN a && !fltIsNaN b && decide (fltKey b < fltKey a)

/-- The class-selection loop of predictFromImage: the state is (best, highest), starting
from (0, 0.0). -/
def selectBest (outputs : Nat) (output : Dense) : Nat :=
  ((List.range outputs).foldl
    (fun (st : Nat × Nat) i =>
      if fltGt (output.At i 0) st.2 then (i, output.At i 0) else st) (0, 0)).1

/-- Magnitude of a finite pattern in units of 2^-1074. -/
def mag (b : Nat) : Nat :=
  if expField b = 0 then mantField b else (2 ^ 52 + mantField b) * 2 ^ (expField b - 1)

/-! ## Float comparison and a fragment of IEEE-754 arithmetic -/

theorem and_high_mask (v k : Nat) (hv : v < 2 ^ 64) (hk : k < 64) :
    v &&& ((0xffffffffffffffff <<< k) % 2 ^ 64) = v / 2 ^ k * 2 ^ k := by
  apply Nat.eq_of_testBit_eq
  intro j
  have h1 : (0xffffffffffffffff : Nat) = 2 ^ 64 - 1 := by norm_num
  rw [Nat.testBit_and, Nat.testBit_mod_two_pow, Nat.testBit_shiftLeft, h1,
    Nat.testBit_two_pow_sub_one, Nat.mul_comm, Nat.testBit_mul_pow_two,
    ← Nat.shiftRight_eq_div_pow, Nat.testBit_shiftRight]
  by_cases hjk : k ≤ j
  · have e : k + (j - k) = j := by omega
    rw [e]
    by_cases hj : j < 64
    · have : j - k < 64 := by omega
      simp [hjk, hj, this]
    · have hv2 : v.testBit j = false := by
        apply Nat.testBit_lt_two_pow
        exact lt_of_lt_of_le hv (Nat.pow_le_pow_right (by norm_num) (by omega))
      simp [hv2]
  · simp [hjk]

theorem and_getBitMask (v k : Nat) (hv : v < 2 ^ 64) :
    v &&& getBitMask k = if k < 64 then v / 2 ^ k * 2 ^ k else 0 := by
  unfold getBitMask
  split
  · next h => exact and_high_mask v k hv h
  · simp

theorem div_mul_eq_sub_mod (m d : Nat) : m / d * d = m - m % d := by
  have := Nat.div_add_mod m d
  rw [Nat.mul_comm] at this
  omega

/-- Clearing the low `k` bits of the 53-bit significand and dropping the implicit bit
clears the low `k` bits of the stored significand, for every `k`. -/
theorem stored_eq (m k : Nat) (hm : m < 2 ^ 52) :
    ((m + 2 ^ 52) / 2 ^ k * 2 ^ k) % 2 ^ 52 = m - m % 2 ^ k := by
  by_cases hk : k ≤ 52
  · have hp : (2 : Nat) ^ 52 = 2 ^ k * 2 ^ (52 - k) := by
      rw [← pow_add]; congr 1; omega
    have hpos : 0 < 2 ^ k := Nat.pow_pos (by norm_num)
    have hle : m - m % 2 ^ k < 2 ^ 52 := by omega
    rw [hp, Nat.add_mul_div_left _ _ hpos, Nat.add_mul, div_mul_eq_sub_mod,
      Nat.mul_comm (2 ^ (52 - k)) (2 ^ k), Nat.add_mod_right]
    rw [← hp]
    exact Nat.mod_eq_of_lt hle
  · have h1 : m + 2 ^ 52 < 2 ^ k := by
      have : (2 : Nat) ^ 53 ≤ 2 ^ k := Nat.pow_le_pow_right (by norm_num) (by omega)
      omega
    have h2 : m % 2 ^ k = m := Nat.mod_eq_of_lt (by omega)
    rw [Nat.div_eq_of_lt h1, h2]
    simp

theorem masked_stored (m k : Nat) (hm : m < 2 ^ 52) :
    ((m + 2 ^ 52) &&& getBitMask k) &&& (2 ^ 52 - 1) = m - m % 2 ^ k := by
  rw [Nat.and_pow_two_sub_one_eq_mod, and_getBitMask _ _ (by omega)]
  split
  · exact stored_eq m k hm
  · next h =>
    have : m % 2 ^ k = m := by
      apply Nat.mod_eq_of_lt
      have : (2 : Nat) ^ 52 ≤ 2 ^ k := Nat.pow_le_pow_right (by norm_num) (by omega)
      omega
    rw [this]; simp

theorem absBits_facts (x : Nat) (hx : x < 2 ^ 64) :
    absBits x % 2 ^ 52 = x % 2 ^ 52 ∧ absBits x < 2 ^ 64 ∧
    (fltLtZero x = true → absBits x + 2 ^ 63 = x) ∧
    (fltLtZero x = false → absBits x = x) := by
  unfold absBits
  by_cases h : fltLtZero x = true
  · have hs : signBit x = 1 := by
      simp only [fltLtZero, Bool.and_eq_true, decide_eq_true_eq] at h
      exact h.1.1
    unfold signBit at hs
    simp only [h, if_true, fneg]
    have : ¬ x < 2 ^ 63 := by omega
    simp only [this, if_false]
    refine ⟨by omega, by omega, fun _ => by omega, fun h2 => by simp at h2⟩
  · simp only [h, if_false]
    refine ⟨rfl, hx, fun h2 => by simp at h2, fun _ => rfl⟩

/-- Arithmetic form of `truncateM` on bit patterns. -/
theorem truncateM_eq (nb x : Nat) (hnb : nb < 2 ^ 64) (hx : x < 2 ^ 64) :
    truncateM nb x =
      if rawExp x = 0 then 0
      else if toInt64 nb ≤ (rawExp x : Int) - 1023 then x
      else x - mantField x % 2 ^ dropCount nb x := by
  obtain ⟨ha1, ha2, ha3, ha4⟩ := absBits_facts x hx
  have hfold : (if fltLtZero x then fneg x else x) = absBits x := rfl
  have hm52 : absBits x % 2 ^ 52 < 2 ^ 52 := Nat.mod_lt _ (by norm_num)
  have hmask : (0xfffffffffffff : Nat) = 2 ^ 52 - 1 := by norm_num
  simp only [truncateM, hfold, Nat.shiftRight_eq_div_pow, Nat.shiftLeft_eq]
  have hre : absBits x / 2 ^ 52 = rawExp x := rfl
  rw [hre]
  by_cases h0 : rawExp x = 0
  · simp [h0]
  simp only [h0, if_false, ge_iff_le]
  by_cases h1 : toInt64 nb ≤ (rawExp x : Int) - 1023
  · simp only [h1, if_true]
    by_cases hn : fltLtZero x = true
    · have := ha3 hn
      simp only [hn, if_true, fneg]
      have h63 : ¬ absBits x < 2 ^ 63 → False := by omega
      split
      · omega
      · omega
    · have hn2 : fltLtZero x = false := by simpa using hn
      simp [hn2, ha4 hn2]
  simp only [h1, if_false]
  have hM : (0x10000000000000 : Nat) = 2 ^ 52 := by norm_num
  have hk : toUint64 (toInt64 nb - ((rawExp x : Int) - 1023)) = dropCount nb x := by
    unfold toUint64 dropCount
    have hre2 : rawExp x < 4096 := by unfold rawExp; omega
    have : toInt64 nb < 2 ^ 63 := by unfold toInt64; split <;> omega
    rw [Int.emod_eq_of_lt (by omega) (by omega)]
  have hlt : absBits x % 2 ^ 52 + 2 ^ 52 < 2 ^ 64 := by omega
  rw [hk, hmask, hM, Nat.and_pow_two_sub_one_eq_mod (absBits x), Nat.mod_eq_of_lt hlt,
    masked_stored _ _ hm52, ha1]
  have hr : (x % 2 ^ 52) % 2 ^ dropCount nb x ≤ x % 2 ^ 52 := Nat.mod_le _ _
  have hre3 : rawExp x * 2 ^ 52 = absBits x - absBits x % 2 ^ 52 := by
    unfold rawExp; omega
  unfold mantField
  generalize (x % 2 ^ 52) % 2 ^ dropCount nb x = r at hr ⊢
  rw [hre3]
  by_cases hn : fltLtZero x = true
  · have := ha3 hn
    simp only [hn, if_true]
    omega
  · have hn2 : fltLtZero x = false := by simpa using hn
    have := ha4 hn2
    simp only [hn2, Bool.false_eq_true, if_false]
    omega

theorem fltLtZero_iff (x : Nat) :
    fltLtZero x = true ↔
      (x / 2 ^ 63 = 1 ∧ ¬ ((x / 2 ^ 52) % 2 ^ 11 = 2047 ∧ x % 2 ^ 52 ≠ 0) ∧ x ≠ 2 ^ 63) := by
  simp only [fltLtZero, signBit, expField, mantField, Bool.and_eq_true, decide_eq_true_eq,
    Bool.not_eq_true', Bool.and_eq_false_imp, decide_eq_false_iff_not, ne_eq, not_and, not_not]
  tauto

theorem rawExp_cases (x : Nat) (hx : x < 2 ^ 64) :
    (fltLtZero x = true ∧ rawExp x = (x - 2 ^ 63) / 2 ^ 52 ∧ 2 ^ 63 < x) ∨
    (fltLtZero x = false ∧ rawExp x = x / 2 ^ 52) := by
  obtain ⟨-, -, ha3, ha4⟩ := absBits_facts x hx
  by_cases hn : fltLtZero x = true
  · left
    have h := ha3 hn
    have h2 := (fltLtZero_iff x).1 hn
    refine ⟨hn, ?_, by omega⟩
    have h3 : absBits x = x - 2 ^ 63 := by omega
    unfold rawExp
    rw [h3]
  · right
    have hn2 : fltLtZero x = false := by simpa using hn
    refine ⟨hn2, ?_⟩
    unfold rawExp
    rw [ha4 hn2]

/-- On a pattern whose exponent field is neither 0 nor 2047 the local `originalExponent`
is the exponent field. -/
theorem rawExp_normal (x : Nat) (hx : x < 2 ^ 64) (h0 : expField x ≠ 0)
    (h1 : expField x ≠ 2047) : rawExp x = expField x := by
  unfold expField at *
  rcases rawExp_cases x hx with ⟨hn, hr, -⟩ | ⟨hn, hr⟩
  · rw [hr]; have := (fltLtZero_iff x).1 hn; omega
  · rw [hr]
    have : ¬ (x / 2 ^ 63 = 1 ∧ ¬ ((x / 2 ^ 52) % 2 ^ 11 = 2047 ∧ x % 2 ^ 52 ≠ 0) ∧ x ≠ 2 ^ 63) := by
      rw [← fltLtZero_iff, hn]; simp
    omega

theorem truncateM_lt (nb x : Nat) (hnb : nb < 2 ^ 64) (hx : x < 2 ^ 64) :
    truncateM nb x < 2 ^ 64 := by
  rw [truncateM_eq nb x hnb hx]
  split
  · norm_num
  · split
    · exact hx
    · omega

theorem truncateM_zero (nb : Nat) (hnb : nb < 2 ^ 64) : truncateM nb 0 = 0 := by
  rw [truncateM_eq nb 0 hnb (by norm_num)]
  have : rawExp 0 = 0 := by decide
  simp [this]

/-- Idempotence of `truncateM` on every 64-bit pattern (shared by the claims below). -/
theorem truncateM_idem_aux (nb x : Nat) (hnb : nb < 2 ^ 64) (hx : x < 2 ^ 64) :
    truncateM nb (truncateM nb x) = truncateM nb x := by
  have hy := truncateM_lt nb x hnb hx
  have hex := truncateM_eq nb x hnb hx
  by_cases h0 : rawExp x = 0
  · simp only [h0, if_true] at hex
    rw [hex, truncateM_zero nb hnb]
  simp only [h0, if_false] at hex
  by_cases h1 : toInt64 nb ≤ (rawExp x : Int) - 1023
  · simp only [h1, if_true] at hex
    rw [hex, hex]
  simp only [h1, if_false] at hex
  have hr : mantField x % 2 ^ dropCount nb x ≤ mantField x := Nat.mod_le _ _
  have hdvd : (mantField x - mantField x % 2 ^ dropCount nb x) % 2 ^ dropCount nb x = 0 := by
    rw [← div_mul_eq_sub_mod]; exact Nat.mul_mod_left _ _
  generalize hy' : truncateM nb x = y at *
  generalize hr' : mantField x % 2 ^ dropCount nb x = r at *
  unfold mantField at hr hdvd hr'
  have hmy : mantField y = x % 2 ^ 52 - r := by unfold mantField; omega
  have hey := truncateM_eq nb y hnb hy
  by_cases hm : x % 2 ^ 52 - r = 0
  · -- the stored significand of `y` is zero
    have hry : rawExp y ≠ 0 := by
      rcases rawExp_cases y hy with ⟨hn, hr2, -⟩ | ⟨hn, hr2⟩
      · have := (fltLtZero_iff y).1 hn
        rw [hr2]; omega
      · rcases rawExp_cases x hx with ⟨hnx, hrx, hx2⟩ | ⟨hnx, hrx⟩
        · rw [hr2]; rw [hrx] at h0; omega
        · rw [hr2]; rw [hrx] at h0; omega
    rw [hey, hmy, hm]
    simp [hry]
  · -- the stored significand stays nonzero: same class, same exponent, same count
    have hfl : fltLtZero y = fltLtZero x := by
      rw [Bool.eq_iff_iff, fltLtZero_iff, fltLtZero_iff]
      constructor
      · rintro ⟨a, b, c⟩; refine ⟨by omega, ?_, by omega⟩
        intro h; apply b; omega
      · rintro ⟨a, b, c⟩; refine ⟨by omega, ?_, by omega⟩
        intro h; apply b; omega
    have hrw : rawExp y = rawExp x := by
      rcases rawExp_cases y hy with ⟨hn, hr2, -⟩ | ⟨hn, hr2⟩
      · rcases rawExp_cases x hx with ⟨hnx, hrx, hx2⟩ | ⟨hnx, hrx⟩
        · rw [hr2, hrx]; omega
        · rw [hfl, hnx] at hn; simp at hn
      · rcases rawExp_cases x hx with ⟨hnx, hrx, hx2⟩ | ⟨hnx, hrx⟩
        · rw [hfl, hnx] at hn; simp at hn
        · rw [hr2, hrx]; omega
    have hdc : dropCount nb y = dropCount nb x := by unfold dropCount; rw [hrw]
    rw [hey, hrw, hdc, hmy, hdvd]
    simp [h0, h1]


/-! ## Shape of the result on the classes of patterns -/

theorem truncateM_normal (nb x : Nat) (hnb : nb < 2 ^ 64) (hx : x < 2 ^ 64)
    (h0 : expField x ≠ 0) (h1 : expField x ≠ 2047) :
    truncateM nb x =
      if toInt64 nb ≤ unbExp x then x
      else x - mantField x % 2 ^ (toInt64 nb - unbExp x).toNat := by
  rw [truncateM_eq nb x hnb hx]
  unfold dropCount unbExp
  rw [rawExp_normal x hx h0 h1]
  simp [h0]

theorem fields_sub (x r : Nat) (hr : r ≤ mantField x) :
    signBit (x - r) = signBit x ∧ expField (x - r) = expField x ∧
      mantField (x - r) = mantField x - r := by
  unfold signBit expField mantField at *
  refine ⟨by omega, by omega, by omega⟩

theorem truncateM_normal_fields (nb x : Nat) (hnb : nb < 2 ^ 64) (hx : x < 2 ^ 64)
    (h0 : expField x ≠ 0) (h1 : expField x ≠ 2047) :
    signBit (truncateM nb x) = signBit x ∧ expField (truncateM nb x) = expField x ∧
      mantField (truncateM nb x) =
        (if toInt64 nb ≤ unbExp x then mantField x
         else mantField x - mantField x % 2 ^ (toInt64 nb - unbExp x).toNat) := by
  rw [truncateM_normal nb x hnb hx h0 h1]
  split
  · exact ⟨rfl, rfl, rfl⟩
  · exact fields_sub x _ (Nat.mod_le _ _)

theorem rawExp_expZero (x : Nat) (hx : x < 2 ^ 64) (h0 : expField x = 0) (hz : x ≠ 2 ^ 63) :
    rawExp x = 0 := by
  unfold expField at h0
  rcases rawExp_cases x hx with ⟨hn, hr, -⟩ | ⟨hn, hr⟩
  · rw [hr]; have := (fltLtZero_iff x).1 hn; omega
  · rw [hr]
    have : ¬ (x / 2 ^ 63 = 1 ∧ ¬ ((x / 2 ^ 52) % 2 ^ 11 = 2047 ∧ x % 2 ^ 52 ≠ 0) ∧ x ≠ 2 ^ 63) := by
      rw [← fltLtZero_iff, hn]; simp
    omega

theorem truncateM_negZero (nb : Nat) (hnb : nb < 2 ^ 64) : truncateM nb (2 ^ 63) = 2 ^ 63 := by
  rw [truncateM_eq nb _ hnb (by norm_num)]
  have h1 : rawExp (2 ^ 63) = 2048 := by decide
  have h2 : mantField (2 ^ 63) = 0 := by decide
  rw [h1, h2]
  simp

theorem truncateM_expZero (nb x : Nat) (hnb : nb < 2 ^ 64) (hx : x < 2 ^ 64)
    (h0 : expField x = 0) : truncateM nb x = if x = 2 ^ 63 then 2 ^ 63 else 0 := by
  by_cases hz : x = 2 ^ 63
  · rw [if_pos hz, hz]; exact truncateM_negZero nb hnb
  · rw [if_neg hz, truncateM_eq nb x hnb hx, rawExp_expZero x hx h0 hz]
    simp

theorem toInt64_small (nb : Nat) (h : nb < 2 ^ 63) : toInt64 nb = (nb : Int) := by
  unfold toInt64
  rw [if_pos h]

theorem two_zpow_split (e : ℤ) : (2 : ℚ) ^ (52 : ℤ) * 2 ^ (e - 1075) = 2 ^ (e - 1023) := by
  rw [← zpow_add₀ (by norm_num : (2 : ℚ) ≠ 0)]
  congr 1
  ring

theorem abs_toRat_normal (b : Nat) (h0 : expField b ≠ 0) :
    |toRat b| = ((2 ^ 52 + mantField b : Nat) : ℚ) * 2 ^ ((expField b : ℤ) - 1075) := by
  have hpos : (0 : ℚ) ≤ ((2 ^ 52 + mantField b : Nat) : ℚ) * 2 ^ ((expField b : ℤ) - 1075) := by
    positivity
  unfold toRat
  rw [if_neg h0, abs_mul, abs_of_nonneg hpos]
  split <;> simp

theorem toRat_zero_mant (b : Nat) (h0 : expField b = 0) (hm : mantField b = 0) :
    toRat b = 0 := by
  unfold toRat
  rw [if_pos h0, hm]
  simp

theorem toRat_pow_two (b : Nat) (h0 : expField b ≠ 0) (hm : mantField b = 0) :
    toRat b = (if signBit b = 1 then -1 else 1) * (2 : ℚ) ^ unbExp b := by
  unfold toRat unbExp
  rw [if_neg h0, hm, ← two_zpow_split]
  push_cast
  norm_num

theorem fltLtZero_normal (b : Nat) (h0 : expField b ≠ 0) (h1 : expField b ≠ 2047) :
    fltLtZero b = decide (signBit b = 1) := by
  have hz : b ≠ 9223372036854775808 := by rintro rfl; exact h0 (by decide)
  simp [fltLtZero, h1, hz]

theorem fltGtZero_normal (b : Nat) (h0 : expField b ≠ 0) (h1 : expField b ≠ 2047) :
    fltGtZero b = decide (signBit b = 0) := by
  have hz : b ≠ 0 := by rintro rfl; exact h0 (by decide)
  simp [fltGtZero, h1, hz]

/-! ## Matrices: the in-place loops and the index loops as elementwise maps -/

theorem getD_set_lt (l : List Nat) (i j v : Nat) (hj : j < l.length) :
    (l.set i v).getD j 0 = if i = j then v else l.getD j 0 := by
  have hj2 : j < (l.set i v).length := by rw [List.length_set]; exact hj
  rw [List.getD_eq_getElem _ _ hj2, List.getElem_set, List.getD_eq_getElem _ _ hj]

theorem ext_getD (l₁ l₂ : List Nat) (hl : l₁.length = l₂.length)
    (h : ∀ i, i < l₁.length → l₁.getD i 0 = l₂.getD i 0) : l₁ = l₂ := by
  apply List.ext_getElem hl
  intro n h1 h2
  have := h n h1
  rwa [List.getD_eq_getElem _ _ h1, List.getD_eq_getElem _ _ h2] at this

theorem LoopInv_step (f : Nat → Nat) (l : List Nat) (C r c : Nat) (acc : Dense)
    (hlt : r * C + c < l.length) (h : LoopInv f l C (r * C + c) acc) :
    LoopInv f l C (r * C + c + 1) (acc.Set r c (f (acc.At r c))) := by
  obtain ⟨hC, hlen, hget⟩ := h
  refine ⟨hC, ?_, ?_⟩
  · simp only [Dense.Set, List.length_set]; exact hlen
  · intro idx hidx
    have hcur : acc.At r c = l.getD (r * C + c) 0 := by
      unfold Dense.At
      rw [hC, hget _ hlt, if_neg (lt_irrefl _)]
    simp only [Dense.Set]
    rw [hC, getD_set_lt _ _ _ _ (by rw [hlen]; exact hidx), hcur, hget idx hidx]
    by_cases e : r * C + c = idx
    · subst e; simp
    · have e' : ¬ (idx = r * C + c) := fun h => e h.symm
      by_cases hl : idx < r * C + c
      · have : idx < r * C + c + 1 := by omega
        simp [e, hl, this]
      · have : ¬ idx < r * C + c + 1 := by omega
        simp [e, hl, this]

theorem LoopInv_inner (f : Nat → Nat) (l : List Nat) (C r : Nat) :
    ∀ (k : Nat) (acc : Dense), r * C + k ≤ l.length → LoopInv f l C (r * C) acc →
      LoopInv f l C (r * C + k)
        ((List.range k).foldl (fun acc c => acc.Set r c (f (acc.At r c))) acc) := by
  intro k
  induction k with
  | zero => intro acc _ h; simpa using h
  | succ k ih =>
    intro acc hle h
    rw [List.range_succ, List.foldl_append]
    simp only [List.foldl_cons, List.foldl_nil]
    have := ih acc (by omega) h
    exact LoopInv_step f l C r k _ (by omega) this

theorem LoopInv_outer (f : Nat → Nat) (l : List Nat) (C : Nat) :
    ∀ (k : Nat) (acc : Dense), k * C ≤ l.length → LoopInv f l C 0 acc →
      LoopInv f l C (k * C)
        ((List.range k).foldl (fun acc r =>
          (List.range C).foldl (fun acc c => acc.Set r c (f (acc.At r c))) acc) acc) := by
  intro k
  induction k with
  | zero => intro acc _ h; simpa using h
  | succ k ih =>
    intro acc hle h
    rw [List.range_succ, List.foldl_append]
    simp only [List.foldl_cons, List.foldl_nil]
    have hk : k * C + C = (k + 1) * C := by ring
    have h1 := ih acc (by omega) h
    have h2 := LoopInv_inner f l C k C _ (by omega) h1
    rw [hk] at h2
    exact h2

theorem foldl_Set_rows (f : Nat → Nat) (r : Nat) :
    ∀ (cs : List Nat) (acc : Dense),
      (cs.foldl (fun acc c => acc.Set r c (f (acc.At r c))) acc).rows = acc.rows := by
  intro cs
  induction cs with
  | nil => intro acc; rfl
  | cons c cs ih => intro acc; rw [List.foldl_cons, ih]; rfl

theorem foldl_foldl_Set_rows (f : Nat → Nat) (C : Nat) :
    ∀ (rs : List Nat) (acc : Dense),
      (rs.foldl (fun acc r =>
        (List.range C).foldl (fun acc c => acc.Set r c (f (acc.At r c))) acc) acc).rows
        = acc.rows := by
  intro rs
  induction rs with
  | nil => intro acc; rfl
  | cons r rs ih => intro acc; rw [List.foldl_cons, ih, foldl_Set_rows]

/-- On a matrix holding rows * cols values the two loops of truncateMatrix replace every
entry by its truncation. -/
theorem truncateMatrix_eq (nb : Nat) (m : Dense) (hlen : m.data.length = m.rows * m.cols) :
    truncateMatrix nb m = Dense.mapD (truncateM nb) m := by
  have h0 : LoopInv (truncateM nb) m.data m.cols 0 m := ⟨rfl, rfl, fun idx _ => by simp⟩
  have h := LoopInv_outer (truncateM nb) m.data m.cols m.rows m (by omega) h0
  have hr := foldl_foldl_Set_rows (truncateM nb) m.cols (List.range m.rows) m
  unfold truncateMatrix
  simp only []
  generalize (List.range m.rows).foldl (fun acc r =>
      (List.range m.cols).foldl (fun acc c => acc.Set r c (truncateM nb (acc.At r c))) acc) m
    = res at h hr
  obtain ⟨hC, hl, hget⟩ := h
  have hd : res.data = m.data.map (truncateM nb) := by
    apply ext_getD
    · rw [hl, List.length_map]
    · intro i hi
      rw [hl] at hi
      rw [hget i hi, if_pos (by omega)]
      have hi2 : i < (m.data.map (truncateM nb)).length := by
        rw [List.length_map]; exact hi
      rw [List.getD_eq_getElem (m.data.map (truncateM nb)) 0 hi2, List.getElem_map,
        List.getD_eq_getElem _ _ hi]
  cases res
  simp only [Dense.mapD] at *
  subst hC hr hd
  rfl

theorem tabulate_map (m : Dense) (g : Nat → Nat) (hlen : m.data.length = m.rows * m.cols) :
    Dense.tabulate m.rows m.cols (fun i j => g (m.At i j)) = Dense.mapD g m := by
  unfold Dense.tabulate Dense.mapD Dense.At
  congr 1
  apply List.ext_getElem
  · simp [hlen]
  · intro n h1 h2
    simp only [List.getElem_map, List.getElem_range]
    have hn : n < m.data.length := by simpa using h2
    have e : n / m.cols * m.cols + n % m.cols = n := by
      rw [Nat.mul_comm]; exact Nat.div_add_mod n m.cols
    rw [e, List.getD_eq_getElem _ _ hn]

theorem tabulate_zip (m n : Dense) (op : Nat → Nat → Nat)
    (hm : m.data.length = m.rows * m.cols) (hn : n.data.length = m.rows * m.cols)
    (hc : n.cols = m.cols) :
    Dense.tabulate m.rows m.cols (fun i j => op (m.At i j) (n.At i j)) = Dense.zipD op m n := by
  unfold Dense.tabulate Dense.zipD Dense.At
  congr 1
  apply List.ext_getElem
  · simp [hm, hn]
  · intro k h1 h2
    simp only [List.getElem_map, List.getElem_range, List.getElem_zipWith]
    have hk : k < m.rows * m.cols := by simpa using h1
    have e : k / m.cols * m.cols + k % m.cols = k := by
      rw [Nat.mul_comm]; exact Nat.div_add_mod k m.cols
    rw [hc, e, List.getD_eq_getElem _ _ (by omega), List.getD_eq_getElem _ _ (by omega)]

/-! ## The helpers of mlp.go on well-shaped arguments -/

/-- Binding a returned value runs the continuation on it.  The proof is not a bare
reflexivity, so that rewriting with it leaves explicit steps in the proof term. -/
theorem ok_bind {α β : Type} (a : α) (f : α → Except MatErr β) :
    (Except.ok a >>= f) = f a := Eq.trans rfl rfl

theorem NewDense_nil (r c : Nat) (hr : r ≠ 0) (hc : c ≠ 0) :
    NewDense r c none = .ok { rows := r, cols := c, data := List.replicate (r * c) 0 } := by
  simp [NewDense, hr, hc]

theorem NewDense_col (x : List Nat) (hx : x.length ≠ 0) :
    NewDense x.length 1 (some x) = .ok (colVec x) := by
  simp [NewDense, hx, colVec]

theorem Elem_eq (op : Nat → Nat → Nat) (m n : Dense) (hm : m.WF) (hn : n.WF)
    (hr : n.rows = m.rows) (hc : n.cols = m.cols) :
    (do let o ← NewDense m.rows m.cols none; Dense.Elem op o m n)
      = .ok (Dense.zipD op m n) := by
  obtain ⟨h1, h2, h3⟩ := hm
  obtain ⟨-, -, h4⟩ := hn
  rw [NewDense_nil _ _ h1 h2, ok_bind]
  rw [hr, hc] at h4
  simp [Dense.Elem, reuseAs, hr, hc, tabulate_zip m n op h3 h4 hc]

theorem add_eq (F : FloatOps) (m n : Dense) (hm : m.WF) (hn : n.WF)
    (hr : n.rows = m.rows) (hc : n.cols = m.cols) :
    add F m n = .ok (Dense.zipD F.add m n) := Elem_eq F.add m n hm hn hr hc

theorem subtract_eq (F : FloatOps) (m n : Dense) (hm : m.WF) (hn : n.WF)
    (hr : n.rows = m.rows) (hc : n.cols = m.cols) :
    subtract F m n = .ok (Dense.zipD F.sub m n) := Elem_eq F.sub m n hm hn hr hc

theorem multiply_eq (F : FloatOps) (m n : Dense) (hm : m.WF) (hn : n.WF)
    (hr : n.rows = m.rows) (hc : n.cols = m.cols) :
    multiply F m n = .ok (Dense.zipD F.mul m n) := Elem_eq F.mul m n hm hn hr hc

theorem dot_eq (F : FloatOps) (m n : Dense) (hr : m.rows ≠ 0) (hc : n.cols ≠ 0)
    (h : m.cols = n.rows) : dot F m n = .ok (Dense.matMul F m n) := by
  unfold dot
  simp only []
  rw [NewDense_nil _ _ hr hc, ok_bind]
  simp [Dense.Product, reuseAs, h, Dense.matMul]

theorem apply_sigmoid_eq (F : FloatOps) (m : Dense) (hm : m.WF) :
    apply (sigmoid F) m = .ok (Dense.mapD (sigmoid F 0 0) m) := by
  obtain ⟨h1, h2, h3⟩ := hm
  unfold apply
  rw [NewDense_nil _ _ h1 h2, ok_bind]
  have e : Dense.tabulate m.rows m.cols (fun i j => sigmoid F i j (m.At i j))
      = Dense.mapD (sigmoid F 0 0) m := tabulate_map m (sigmoid F 0 0) h3
  simp [Dense.Apply, reuseAs, e]

theorem scale_eq (F : FloatOps) (s : Nat) (m : Dense) (hm : m.WF) :
    scale F s m = .ok (Dense.mapD (F.mul s) m) := by
  obtain ⟨h1, h2, h3⟩ := hm
  unfold scale
  rw [NewDense_nil _ _ h1 h2, ok_bind]
  simp [Dense.Scale, reuseAs, tabulate_map m (F.mul s) h3]

theorem WF_tabulate (r c : Nat) (f : Nat → Nat → Nat) (hr : r ≠ 0) (hc : c ≠ 0) :
    (Dense.tabulate r c f).WF := by
  refine ⟨hr, hc, ?_⟩
  simp [Dense.tabulate]

theorem WF_matMul (F : FloatOps) (m n : Dense) (hr : m.rows ≠ 0) (hc : n.cols ≠ 0) :
    (Dense.matMul F m n).WF := WF_tabulate _ _ _ hr hc

theorem WF_T (m : Dense) (hm : m.WF) : m.T.WF := WF_tabulate _ _ _ hm.2.1 hm.1

theorem WF_mapD (f : Nat → Nat) (m : Dense) (hm : m.WF) : (Dense.mapD f m).WF := by
  obtain ⟨h1, h2, h3⟩ := hm
  exact ⟨h1, h2, by simp [Dense.mapD, h3]⟩

theorem WF_zipD (op : Nat → Nat → Nat) (m n : Dense) (hm : m.WF) (hn : n.WF)
    (hr : n.rows = m.rows) (hc : n.cols = m.cols) : (Dense.zipD op m n).WF := by
  obtain ⟨h1, h2, h3⟩ := hm
  obtain ⟨-, -, h4⟩ := hn
  rw [hr, hc] at h4
  exact ⟨h1, h2, by simp [Dense.zipD, h3, h4]⟩

theorem WF_colVec (x : List Nat) (hx : x.length ≠ 0) : (colVec x).WF :=
  ⟨hx, by simp [colVec], by simp [colVec]⟩

theorem WF_onesVec (n : Nat) (hn : n ≠ 0) : (onesVec n).WF :=
  WF_colVec _ (by simpa using hn)

theorem sigmoidPrime_eq (F : FloatOps) (m : Dense) (hm : m.WF) (hc : m.cols = 1) :
    sigmoidPrime F m
      = .ok (Dense.zipD F.mul m (Dense.zipD F.sub (onesVec m.rows) m)) := by
  have h1 : NewDense m.rows 1 (some (List.replicate m.rows fOne)) = .ok (onesVec m.rows) := by
    have := NewDense_col (List.replicate m.rows fOne) (by simpa using hm.1)
    simpa [onesVec] using this
  have hw := WF_onesVec m.rows hm.1
  have hr1 : m.rows = (onesVec m.rows).rows := by simp [onesVec, colVec]
  have hc1 : m.cols = (onesVec m.rows).cols := by rw [hc]; rfl
  have h2 := subtract_eq F (onesVec m.rows) m hw hm hr1 hc1
  have h3 := multiply_eq F m _ hm (WF_zipD F.sub _ m hw hm hr1 hc1) hr1.symm hc1.symm
  unfold sigmoidPrime
  simp only []
  rw [h1, ok_bind, h2, ok_bind, h3]

/-! ## Predict and Train in closed form -/

theorem dot_pack (F : FloatOps) (m n : Dense) (hr : m.rows ≠ 0) (hc : n.cols ≠ 0)
    (h : m.cols = n.rows) :
    dot F m n = .ok (Dense.matMul F m n) ∧ (Dense.matMul F m n).WF ∧
      (Dense.matMul F m n).rows = m.rows ∧ (Dense.matMul F m n).cols = n.cols :=
  ⟨dot_eq F m n hr hc h, WF_matMul F m n hr hc, rfl, rfl⟩

theorem apply_pack (F : FloatOps) (m : Dense) (hm : m.WF) :
    apply (sigmoid F) m = .ok (Dense.mapD (sigmoid F 0 0) m) ∧
      (Dense.mapD (sigmoid F 0 0) m).WF ∧
      (Dense.mapD (sigmoid F 0 0) m).rows = m.rows ∧
      (Dense.mapD (sigmoid F 0 0) m).cols = m.cols :=
  ⟨apply_sigmoid_eq F m hm, WF_mapD _ m hm, rfl, rfl⟩

theorem scale_pack (F : FloatOps) (s : Nat) (m : Dense) (hm : m.WF) :
    scale F s m = .ok (Dense.mapD (F.mul s) m) ∧ (Dense.mapD (F.mul s) m).WF ∧
      (Dense.mapD (F.mul s) m).rows = m.rows ∧ (Dense.mapD (F.mul s) m).cols = m.cols :=
  ⟨scale_eq F s m hm, WF_mapD _ m hm, rfl, rfl⟩

theorem zip_pack (op : Nat → Nat → Nat) (m n : Dense) (hm : m.WF) (hn : n.WF)
    (hr : n.rows = m.rows) (hc : n.cols = m.cols) :
    (do let o ← NewDense m.rows m.cols none; Dense.Elem op o m n)
        = .ok (Dense.zipD op m n) ∧
      (Dense.zipD op m n).WF ∧ (Dense.zipD op m n).rows = m.rows ∧
      (Dense.zipD op m n).cols = m.cols :=
  ⟨Elem_eq op m n hm hn hr hc, WF_zipD op m n hm hn hr hc, rfl, rfl⟩

theorem sigmoidPrime_pack (F : FloatOps) (m : Dense) (hm : m.WF) (hc : m.cols = 1) :
    sigmoidPrime F m = .ok (Dense.zipD F.mul m (Dense.zipD F.sub (onesVec m.rows) m)) ∧
      (Dense.zipD F.mul m (Dense.zipD F.sub (onesVec m.rows) m)).WF ∧
      (Dense.zipD F.mul m (Dense.zipD F.sub (onesVec m.rows) m)).rows = m.rows ∧
      (Dense.zipD F.mul m (Dense.zipD F.sub (onesVec m.rows) m)).cols = m.cols := by
  have hw := WF_onesVec m.rows hm.1
  have hr1 : m.rows = (onesVec m.rows).rows := by simp [onesVec, colVec]
  have hc1 : m.cols = (onesVec m.rows).cols := by rw [hc]; rfl
  exact ⟨sigmoidPrime_eq F m hm hc,
    WF_zipD F.mul m _ hm (WF_zipD F.sub _ m hw hm hr1 hc1) hr1.symm hc1.symm, rfl, rfl⟩

theorem T_dims (m : Dense) : m.T.rows = m.cols ∧ m.T.cols = m.rows := ⟨rfl, rfl⟩

theorem Network.WF_dims (net : Network) (hnet : net.WF) :
    net.outputWeights.cols = net.hiddenWeights.rows := by
  obtain ⟨-, -, e1, -, -, e4⟩ := hnet
  exact_mod_cast e4.trans e1.symm

/-- The sequence of calls of Predict, each with its result named. -/
theorem Predict_steps (F : FloatOps) (nb : Nat) (net : Network) (x : List Nat)
    (X A A1 A2 A3 B B1 B2 B3 : Dense)
    (s1 : NewDense x.length 1 (some x) = .ok X)
    (s2 : dot F net.hiddenWeights X = .ok A)
    (s3 : truncateMatrix nb A = A1)
    (s4 : apply (sigmoid F) A1 = .ok A2)
    (s5 : truncateMatrix nb A2 = A3)
    (s6 : dot F net.outputWeights A3 = .ok B)
    (s7 : truncateMatrix nb B = B1)
    (s8 : apply (sigmoid F) B1 = .ok B2)
    (s9 : truncateMatrix nb B2 = B3) :
    Network.Predict F nb net x = .ok B3 := by
  unfold Network.Predict
  simp only [s1, ok_bind, s2, s3, s4, s5, s6, s7, s8, s9]
  rfl

/-- On a well-formed network and an input of length inputs, Predict returns the closed
form with a truncation after each of the four stages. -/
theorem Predict_eq_aux (F : FloatOps) (nb : Nat) (net : Network) (x : List Nat)
    (hnet : net.WF) (hx : (x.length : Int) = net.inputs) :
    Network.Predict F nb net x = .ok (predictSpec F nb net x) := by
  have hoc := Network.WF_dims net hnet
  obtain ⟨hWh, hWo, e1, e2, e3, e4⟩ := hnet
  have hxl : net.hiddenWeights.cols = x.length := by exact_mod_cast e2.trans hx.symm
  have hx0 : x.length ≠ 0 := by rw [← hxl]; exact hWh.2.1
  unfold predictSpec
  dsimp only
  have s1 := NewDense_col x hx0
  have rX : (colVec x).rows = x.length := rfl
  have cX : (colVec x).cols = 1 := rfl
  generalize colVec x = X at *
  obtain ⟨s2, wA, rA, cA⟩ := dot_pack F net.hiddenWeights X hWh.1 (by omega) (by omega)
  generalize Dense.matMul F net.hiddenWeights X = A at *
  have s3 := truncateMatrix_eq nb A wA.2.2
  have wA1 := WF_mapD (truncateM nb) A wA
  have rA1 : (Dense.mapD (truncateM nb) A).rows = A.rows := rfl
  have cA1 : (Dense.mapD (truncateM nb) A).cols = A.cols := rfl
  generalize Dense.mapD (truncateM nb) A = A1 at *
  obtain ⟨s4, wA2, rA2, cA2⟩ := apply_pack F A1 wA1
  generalize Dense.mapD (sigmoid F 0 0) A1 = A2 at *
  have s5 := truncateMatrix_eq nb A2 wA2.2.2
  have rA3 : (Dense.mapD (truncateM nb) A2).rows = A2.rows := rfl
  have cA3 : (Dense.mapD (truncateM nb) A2).cols = A2.cols := rfl
  generalize Dense.mapD (truncateM nb) A2 = A3 at *
  obtain ⟨s6, wB, rB, cB⟩ := dot_pack F net.outputWeights A3 hWo.1 (by omega) (by omega)
  generalize Dense.matMul F net.outputWeights A3 = B at *
  have s7 := truncateMatrix_eq nb B wB.2.2
  have wB1 := WF_mapD (truncateM nb) B wB
  generalize Dense.mapD (truncateM nb) B = B1 at *
  obtain ⟨s8, wB2, -, -⟩ := apply_pack F B1 wB1
  generalize Dense.mapD (sigmoid F 0 0) B1 = B2 at *
  have s9 := truncateMatrix_eq nb B2 wB2.2.2
  exact Predict_steps F nb net x X A A1 A2 A3 B B1 B2 _ s1 s2 s3 s4 s5 s6 s7 s8 s9

theorem Elem_ok (op : Nat → Nat → Nat) (o m n : Dense) (h1 : n.rows = m.rows)
    (h2 : n.cols = m.cols) (h3 : o.rows = m.rows) (h4 : o.cols = m.cols) :
    Dense.Elem op o m n
      = .ok (Dense.tabulate m.rows m.cols (fun i j => op (m.At i j) (n.At i j))) := by
  simp [Dense.Elem, reuseAs, h1, h2, h3, h4]

/-- The sequence of calls of Train, each with its result named. -/
theorem Train_steps (F : FloatOps) (nb : Nat) (net : Network) (x t : List Nat)
    (X HI Hh FI Oo Tv E EH C SPo Go Do So WoN SPh Gh Dh Sh WhN WoT WhT : Dense)
    (s1 : NewDense x.length 1 (some x) = .ok X)
    (s2 : dot F net.hiddenWeights X = .ok HI)
    (s3 : apply (sigmoid F) HI = .ok Hh)
    (s4 : dot F net.outputWeights Hh = .ok FI)
    (s5 : apply (sigmoid F) FI = .ok Oo)
    (s6 : NewDense t.length 1 (some t) = .ok Tv)
    (s7 : subtract F Tv Oo = .ok E)
    (s8 : dot F net.outputWeights.T E = .ok EH)
    (s9 : Dense.Elem F.mul E E E = .ok C)
    (s10 : sigmoidPrime F Oo = .ok SPo)
    (s11 : multiply F E SPo = .ok Go)
    (s12 : dot F Go Hh.T = .ok Do)
    (s13 : scale F net.learningRate Do = .ok So)
    (s14 : add F net.outputWeights So = .ok WoN)
    (s15 : sigmoidPrime F Hh = .ok SPh)
    (s16 : multiply F EH SPh = .ok Gh)
    (s17 : dot F Gh X.T = .ok Dh)
    (s18 : scale F net.learningRate Dh = .ok Sh)
    (s19 : add F net.hiddenWeights Sh = .ok WhN)
    (s20 : truncateMatrix nb WoN = WoT)
    (s21 : truncateMatrix nb WhN = WhT) :
    Network.Train F nb net x t
      = .ok { net with outputWeights := WoT, hiddenWeights := WhT } := by
  unfold Network.Train
  simp only [s1, ok_bind, s2, s3, s4, s5, s6, s7, s8, s9, s10, s11, s12, s13, s14, s15, s16,
    s17, s18, s19, s20, s21]
  rfl

/-- On a well-formed network, an input of length inputs and a target of length outputs,
Train returns the closed form: untruncated forward pass, both updates from the weights
before the step, then both weight matrices truncated. -/
theorem Train_eq_aux (F : FloatOps) (nb : Nat) (net : Network) (x t : List Nat)
    (hnet : net.WF) (hx : (x.length : Int) = net.inputs)
    (ht : (t.length : Int) = net.outputs) :
    Network.Train F nb net x t = .ok (trainSpec F nb net x t) := by
  have hoc := Network.WF_dims net hnet
  obtain ⟨hWh, hWo, e1, e2, e3, e4⟩ := hnet
  have hxl : net.hiddenWeights.cols = x.length := by exact_mod_cast e2.trans hx.symm
  have htl : net.outputWeights.rows = t.length := by exact_mod_cast e3.trans ht.symm
  have hx0 : x.length ≠ 0 := by rw [← hxl]; exact hWh.2.1
  have ht0 : t.length ≠ 0 := by rw [← htl]; exact hWo.1
  obtain ⟨rWoT, cWoT⟩ := T_dims net.outputWeights
  have nWh := hWh.1
  have nWo := hWo.2.1
  unfold trainSpec
  dsimp only
  -- feedforward
  have s1 := NewDense_col x hx0
  have wX := WF_colVec x hx0
  have rX : (colVec x).rows = x.length := rfl
  have cX : (colVec x).cols = 1 := rfl
  generalize colVec x = X at *
  obtain ⟨s2, wHI, rHI, cHI⟩ := dot_pack F net.hiddenWeights X hWh.1 (by omega) (by omega)
  generalize Dense.matMul F net.hiddenWeights X = HI at *
  obtain ⟨s3, wH, rH, cH⟩ := apply_pack F HI wHI
  generalize Dense.mapD (sigmoid F 0 0) HI = Hh at *
  obtain ⟨s4, wFI, rFI, cFI⟩ := dot_pack F net.outputWeights Hh hWo.1 (by omega) (by omega)
  generalize Dense.matMul F net.outputWeights Hh = FI at *
  obtain ⟨s5, wO, rO, cO⟩ := apply_pack F FI wFI
  generalize Dense.mapD (sigmoid F 0 0) FI = Oo at *
  -- find errors
  have s6 := NewDense_col t ht0
  have wT := WF_colVec t ht0
  have rT : (colVec t).rows = t.length := rfl
  have cT : (colVec t).cols = 1 := rfl
  generalize colVec t = Tv at *
  obtain ⟨s7, wE, rE, cE⟩ := zip_pack F.sub Tv Oo wT wO (by omega) (by omega)
  generalize Dense.zipD F.sub Tv Oo = E at *
  obtain ⟨s8, wEH, rEH, cEH⟩ := dot_pack F net.outputWeights.T E (by omega) (by omega)
    (by omega)
  generalize Dense.matMul F net.outputWeights.T E = EH at *
  have s9 := Elem_ok F.mul E E E rfl rfl rfl rfl
  -- backpropagate, output layer
  obtain ⟨s10, wSPo, rSPo, cSPo⟩ := sigmoidPrime_pack F Oo wO (by omega)
  generalize Dense.zipD F.mul Oo (Dense.zipD F.sub (onesVec Oo.rows) Oo) = SPo at *
  obtain ⟨s11, wGo, rGo, cGo⟩ := zip_pack F.mul E SPo wE wSPo (by omega) (by omega)
  generalize Dense.zipD F.mul E SPo = Go at *
  obtain ⟨rHT, cHT⟩ := T_dims Hh
  obtain ⟨s12, wDo, rDo, cDo⟩ := dot_pack F Go Hh.T (by omega) (by omega) (by omega)
  generalize Dense.matMul F Go Hh.T = Do at *
  obtain ⟨s13, wSo, rSo, cSo⟩ := scale_pack F net.learningRate Do wDo
  generalize Dense.mapD (F.mul net.learningRate) Do = So at *
  obtain ⟨s14, wWoN, -, -⟩ := zip_pack F.add net.outputWeights So hWo wSo (by omega)
    (by omega)
  generalize Dense.zipD F.add net.outputWeights So = WoN at *
  -- backpropagate, hidden layer
  obtain ⟨s15, wSPh, rSPh, cSPh⟩ := sigmoidPrime_pack F Hh wH (by omega)
  generalize Dense.zipD F.mul Hh (Dense.zipD F.sub (onesVec Hh.rows) Hh) = SPh at *
  obtain ⟨s16, wGh, rGh, cGh⟩ := zip_pack F.mul EH SPh wEH wSPh (by omega) (by omega)
  generalize Dense.zipD F.mul EH SPh = Gh at *
  obtain ⟨rXT, cXT⟩ := T_dims X
  obtain ⟨s17, wDh, rDh, cDh⟩ := dot_pack F Gh X.T (by omega) (by omega) (by omega)
  generalize Dense.matMul F Gh X.T = Dh at *
  obtain ⟨s18, wSh, rSh, cSh⟩ := scale_pack F net.learningRate Dh wDh
  generalize Dense.mapD (F.mul net.learningRate) Dh = Sh at *
  obtain ⟨s19, wWhN, -, -⟩ := zip_pack F.add net.hiddenWeights Sh hWh wSh (by omega)
    (by omega)
  generalize Dense.zipD F.add net.hiddenWeights Sh = WhN at *
  -- truncation of both updated matrices
  have s20 := truncateMatrix_eq nb WoN wWoN.2.2
  have s21 := truncateMatrix_eq nb WhN wWhN.2.2
  exact Train_steps F nb net x t X HI Hh FI Oo Tv E EH _ SPo Go Do So WoN SPh Gh Dh Sh WhN
    _ _ s1 s2 s3 s4 s5 s6 s7 s8 s9 s10 s11 s12 s13 s14 s15 s16 s17 s18 s19 s20 s21


theorem toyNet_WF : toyNet.WF := by
  simp [Network.WF, Dense.WF, toyNet]

theorem toyOps_div_lt (a b : Nat) : toyOps.div a b < 2 ^ 64 :=
  Nat.mod_lt _ (by norm_num)

/-! ## Further facts on truncateM -/

theorem pattern_split (x : Nat) :
    x = signBit x * 2 ^ 63 + expField x * 2 ^ 52 + mantField x := by
  unfold signBit expField mantField
  omega

theorem rawExp_nonfinite (x : Nat) (hx : x < 2 ^ 64) (h : expField x = 2047) :
    2047 ≤ rawExp x ∧ rawExp x < 4096 := by
  unfold expField at h
  rcases rawExp_cases x hx with ⟨hn, hr, -⟩ | ⟨hn, hr⟩
  · rw [hr]; have := (fltLtZero_iff x).1 hn; omega
  · rw [hr]; omega

theorem truncateM_nonfinite_aux (nb x : Nat) (hnb : nb ≤ 1024) (hx : x < 2 ^ 64)
    (h : expField x = 2047) : truncateM nb x = x := by
  obtain ⟨h1, h2⟩ := rawExp_nonfinite x hx h
  rw [truncateM_eq nb x (by omega) hx, toInt64_small nb (by omega)]
  rw [if_neg (by omega), if_pos (by omega)]

/-- Magnitude bounds of the result on a normal pattern, for every width. -/
theorem truncateM_normal_bounds (nb x : Nat) (hnb : nb < 2 ^ 64) (hx : x < 2 ^ 64)
    (h0 : expField x ≠ 0) (h1 : expField x ≠ 2047) :
    (2 : ℚ) ^ unbExp x ≤ |toRat (truncateM nb x)| ∧ |toRat (truncateM nb x)| ≤ |toRat x| := by
  obtain ⟨-, he, hm⟩ := truncateM_normal_fields nb x hnb hx h0 h1
  have hle : mantField (truncateM nb x) ≤ mantField x := by
    rw [hm]; split
    · exact le_refl _
    · exact Nat.sub_le _ _
  rw [abs_toRat_normal x h0, abs_toRat_normal _ (by rw [he]; exact h0), he]
  have hP : (0 : ℚ) < 2 ^ ((expField x : ℤ) - 1075) := by positivity
  constructor
  · unfold unbExp
    rw [← two_zpow_split]
    apply mul_le_mul_of_nonneg_right _ hP.le
    push_cast
    have : (0 : ℚ) ≤ (mantField (truncateM nb x) : ℚ) := Nat.cast_nonneg _
    have h52 : ((2 : ℚ) ^ (52 : ℤ)) = 2 ^ 52 := by norm_num
    rw [h52]
    linarith
  · apply mul_le_mul_of_nonneg_right _ hP.le
    exact_mod_cast Nat.add_le_add_left hle _

/-! ## Shapes and the image input -/

theorem dot_mismatch (F : FloatOps) (m n : Dense) (hr : m.rows ≠ 0) (hc : n.cols ≠ 0)
    (h : m.cols ≠ n.rows) : dot F m n = .error .ErrShape := by
  unfold dot
  simp only []
  rw [NewDense_nil _ _ hr hc, ok_bind]
  simp [Dense.Product, h]
  rfl

theorem trainSpec_WF (F : FloatOps) (nb : Nat) (net : Network) (x t : List Nat)
    (hnet : net.WF) (hx : (x.length : Int) = net.inputs)
    (ht : (t.length : Int) = net.outputs) : (trainSpec F nb net x t).WF := by
  have hoc := Network.WF_dims net hnet
  obtain ⟨hWh, hWo, e1, e2, e3, e4⟩ := hnet
  have hxl : net.hiddenWeights.cols = x.length := by exact_mod_cast e2.trans hx.symm
  have htl : net.outputWeights.rows = t.length := by exact_mod_cast e3.trans ht.symm
  have lh : (trainSpec F nb net x t).hiddenWeights.data.length
      = net.hiddenWeights.rows * net.hiddenWeights.cols := by
    simp [trainSpec, Dense.mapD, Dense.zipD, Dense.matMul, Dense.tabulate, Dense.T, colVec,
      hWh.2.2]
    rw [hoc, hxl]
  have lo : (trainSpec F nb net x t).outputWeights.data.length
      = net.outputWeights.rows * net.outputWeights.cols := by
    simp [trainSpec, Dense.mapD, Dense.zipD, Dense.matMul, Dense.tabulate, Dense.T, colVec,
      hWo.2.2]
    rw [hoc, htl]
  exact ⟨⟨hWh.1, hWh.2.1, lh⟩, ⟨hWo.1, hWo.2.1, lo⟩, e1, e2, e3, e4⟩

theorem pixelValue_eq (p : Nat) (hp : p ≤ 255) :
    pixelValue p = (255 - (p : ℚ)) / 255 * (999 / 1000) + 1 / 1000 := by
  unfold pixelValue
  rw [Nat.cast_sub hp]
  norm_num

/-! ## The class-selection loop -/

theorem fltGt_nonneg (a b : Nat) (ha : a < 2 ^ 63) (hb : b < 2 ^ 63)
    (na : fltIsNaN a = false) (nb : fltIsNaN b = false) : fltGt a b = decide (b < a) := by
  have sa : signBit a = 0 := by unfold signBit; omega
  have sb : signBit b = 0 := by unfold signBit; omega
  unfold fltGt fltKey
  rw [na, nb, sa, sb]
  simp

/-- Invariant of the selection loop after k iterations over the entries e. -/
theorem selectLoop_inv (e : Nat → Nat) (n : Nat)
    (he : ∀ i, i < n → e i < 2 ^ 63 ∧ fltIsNaN (e i) = false) :
    ∀ k, k ≤ n →
      ∃ best highest,
        (List.range k).foldl
          (fun (st : Nat × Nat) i => if fltGt (e i) st.2 then (i, e i) else st) (0, 0)
          = (best, highest) ∧
        (k = 0 → best = 0 ∧ highest = 0) ∧ (0 < k → best < k ∧ highest = e best) ∧
        (∀ j, j < k → e j ≤ highest) ∧ (∀ j, j < best → e j < highest) := by
  intro k
  induction k with
  | zero =>
    intro _
    exact ⟨0, 0, rfl, fun _ => ⟨rfl, rfl⟩, fun h => absurd h (lt_irrefl 0),
      fun j hj => absurd hj (Nat.not_lt_zero j), fun j hj => absurd hj (Nat.not_lt_zero j)⟩
  | succ k ih =>
    intro hk
    obtain ⟨best, highest, hfold, h0, hpos, hall, hbefore⟩ := ih (by omega)
    obtain ⟨ek1, ek2⟩ := he k (by omega)
    have hh : highest < 2 ^ 63 ∧ fltIsNaN highest = false := by
      rcases Nat.eq_zero_or_pos k with hk0 | hk0
      · rw [(h0 hk0).2]; exact ⟨by norm_num, by decide⟩
      · rw [(hpos hk0).2]; exact he best (by have := (hpos hk0).1; omega)
    rw [List.range_succ, List.foldl_append, hfold]
    simp only [List.foldl_cons, List.foldl_nil]
    rw [fltGt_nonneg (e k) highest ek1 hh.1 ek2 hh.2]
    by_cases hgt : highest < e k
    · refine ⟨k, e k, by simp [hgt], fun h => absurd h (Nat.succ_ne_zero k),
        fun _ => ⟨Nat.lt_succ_self k, rfl⟩, fun j hj => ?_, fun j hj => ?_⟩
      · rcases Nat.lt_succ_iff_lt_or_eq.1 hj with h | h
        · exact le_of_lt (lt_of_le_of_lt (hall j h) hgt)
        · rw [h]
      · exact lt_of_le_of_lt (hall j hj) hgt
    · refine ⟨best, highest, by simp [hgt], fun h => absurd h (Nat.succ_ne_zero k),
        fun _ => ?_, fun j hj => ?_, hbefore⟩
      · rcases Nat.eq_zero_or_pos k with hk0 | hk0
        · obtain ⟨hb, hz⟩ := h0 hk0
          subst hk0
          rw [hb, hz]
          rw [hz] at hgt
          exact ⟨Nat.zero_lt_one, by omega⟩
        · obtain ⟨hb, hz⟩ := hpos hk0
          exact ⟨by omega, hz⟩
      · rcases Nat.lt_succ_iff_lt_or_eq.1 hj with h | h
        · exact hall j h
        · rw [h]; omega

/-- On n >= 1 entries that are neither negative nor NaN, the selection loop returns the
first index of a maximum entry. -/
theorem selectBest_aux (out : Dense) (n : Nat) (hn : 0 < n)
    (he : ∀ i, i < n → out.At i 0 < 2 ^ 63 ∧ fltIsNaN (out.At i 0) = false) :
    selectBest n out < n ∧
      (∀ j, j < n → fltGt (out.At j 0) (out.At (selectBest n out) 0) = false) ∧
      (∀ j, j < selectBest n out →
        fltGt (out.At (selectBest n out) 0) (out.At j 0) = true) := by
  obtain ⟨best, highest, hfold, -, hpos, hall, hbefore⟩ :=
    selectLoop_inv (fun i => out.At i 0) n he n (le_refl n)
  obtain ⟨hb, hz⟩ := hpos hn
  have hsel : selectBest n out = best := by
    unfold selectBest
    rw [hfold]
  rw [hsel]
  obtain ⟨b1, b2⟩ := he best hb
  refine ⟨hb, fun j hj => ?_, fun j hj => ?_⟩
  · obtain ⟨j1, j2⟩ := he j hj
    rw [fltGt_nonneg _ _ j1 b1 j2 b2]
    have := hall j hj
    simp only [decide_eq_false_iff_not, not_lt]
    omega
  · obtain ⟨j1, j2⟩ := he j (by omega)
    rw [fltGt_nonneg _ _ b1 j1 b2 j2]
    have := hbefore j hj
    simp only [decide_eq_true_eq]
    omega

theorem full_div_mul (m k : Nat) (hk : k ≤ 52) :
    (2 ^ 52 + m) / 2 ^ k * 2 ^ k = 2 ^ 52 + (m - m % 2 ^ k) := by
  have hp : (2 : Nat) ^ 52 = 2 ^ k * 2 ^ (52 - k) := by
    rw [← pow_add]; congr 1; omega
  have hmod : (2 ^ 52 + m) % 2 ^ k = m % 2 ^ k := by
    rw [hp, Nat.add_comm, Nat.add_mul_mod_self_left]
  have hr : m % 2 ^ k ≤ m := Nat.mod_le _ _
  rw [div_mul_eq_sub_mod, hmod]
  omega

/-- On a normal pattern whose unbiased exponent is at least width - 52, the magnitude of
the result is the magnitude of x rounded down to a multiple of 2^(width - 52). -/
theorem truncateM_grid_aux (nb x : Nat) (hnb : nb < 2 ^ 63) (hx : x < 2 ^ 64)
    (h0 : expField x ≠ 0) (h1 : expField x ≠ 2047) (hE : (nb : Int) - 52 ≤ unbExp x) :
    |toRat (truncateM nb x)| =
      ((⌊|toRat x| / (2 : ℚ) ^ ((nb : ℤ) - 52)⌋ : ℤ) : ℚ) * (2 : ℚ) ^ ((nb : ℤ) - 52) := by
  obtain ⟨-, he, hm⟩ := truncateM_normal_fields nb x (by omega) hx h0 h1
  rw [toInt64_small nb hnb] at hm
  rw [abs_toRat_normal x h0, abs_toRat_normal _ (by rw [he]; exact h0), he]
  have h2 : (2 : ℚ) ≠ 0 := by norm_num
  have hS : (2 : ℚ) ^ ((nb : ℤ) - 52) ≠ 0 := zpow_ne_zero _ h2
  by_cases hle : (nb : Int) ≤ unbExp x
  · -- the guard returns x: its magnitude is already on the grid
    rw [hm, if_pos hle]
    have hPS : (2 : ℚ) ^ ((expField x : ℤ) - 1075)
        = (2 : ℚ) ^ ((nb : ℤ) - 52) * (2 : ℚ) ^ (unbExp x - nb).toNat := by
      rw [← zpow_natCast, ← zpow_add₀ h2]
      congr 1
      unfold unbExp at hle ⊢
      omega
    have hq : ((2 ^ 52 + mantField x : Nat) : ℚ) * (2 : ℚ) ^ ((expField x : ℤ) - 1075)
          / (2 : ℚ) ^ ((nb : ℤ) - 52)
        = (((2 ^ 52 + mantField x) * 2 ^ (unbExp x - nb).toNat : Nat) : ℚ) := by
      rw [hPS]
      push_cast
      field_simp
      ring
    rw [hq, Int.floor_natCast, hPS]
    push_cast
    ring
  · -- the low k bits are cleared, 1 <= k <= 52
    rw [hm, if_neg hle]
    have hk : ((nb : Int) - unbExp x).toNat ≤ 52 := by omega
    have hSP : (2 : ℚ) ^ ((nb : ℤ) - 52)
        = (2 : ℚ) ^ ((nb : Int) - unbExp x).toNat * (2 : ℚ) ^ ((expField x : ℤ) - 1075) := by
      rw [← zpow_natCast, ← zpow_add₀ h2]
      congr 1
      unfold unbExp at hle ⊢
      omega
    have hP : (2 : ℚ) ^ ((expField x : ℤ) - 1075) ≠ 0 := zpow_ne_zero _ h2
    have hq : ((2 ^ 52 + mantField x : Nat) : ℚ) * (2 : ℚ) ^ ((expField x : ℤ) - 1075)
          / (2 : ℚ) ^ ((nb : ℤ) - 52)
        = ((2 ^ 52 + mantField x : Nat) : ℚ) / ((2 ^ ((nb : Int) - unbExp x).toNat : Nat) : ℚ) := by
      rw [hSP]
      push_cast
      field_simp
      ring
    rw [hq, Rat.floor_natCast_div_natCast, ← Int.natCast_div, Int.cast_natCast,
      ← full_div_mul _ _ hk, hSP]
    push_cast
    ring

/-! ## Monotonicity of truncateM on finite values -/

theorem mag_fields_lt (e m e2 m2 : Nat) (hm : m < 2 ^ 52)
    (h : e < e2 ∨ (e = e2 ∧ m < m2)) :
    (if e = 0 then m else (2 ^ 52 + m) * 2 ^ (e - 1))
      < (if e2 = 0 then m2 else (2 ^ 52 + m2) * 2 ^ (e2 - 1)) := by
  rcases h with h | ⟨rfl, h⟩
  · have he2 : e2 ≠ 0 := by omega
    rw [if_neg he2]
    have hp2 : 0 < 2 ^ (e2 - 1) := Nat.pow_pos (by norm_num)
    have hlow : 2 ^ 52 * 2 ^ (e2 - 1) ≤ (2 ^ 52 + m2) * 2 ^ (e2 - 1) :=
      Nat.mul_le_mul_right _ (by omega)
    by_cases he : e = 0
    · rw [if_pos he]
      have : 2 ^ 52 * 1 ≤ 2 ^ 52 * 2 ^ (e2 - 1) := Nat.mul_le_mul_left _ hp2
      omega
    · rw [if_neg he]
      have hpe : 0 < 2 ^ (e - 1) := Nat.pow_pos (by norm_num)
      have h2e : 2 * 2 ^ (e - 1) = 2 ^ e := by
        rw [← pow_succ']; congr 1; omega
      have hmono : 2 ^ e ≤ 2 ^ (e2 - 1) := Nat.pow_le_pow_right (by norm_num) (by omega)
      calc (2 ^ 52 + m) * 2 ^ (e - 1)
          < (2 ^ 52 + 2 ^ 52) * 2 ^ (e - 1) := mul_lt_mul_of_pos_right (by omega) hpe
        _ = 2 ^ 52 * (2 * 2 ^ (e - 1)) := by ring
        _ = 2 ^ 52 * 2 ^ e := by rw [h2e]
        _ ≤ 2 ^ 52 * 2 ^ (e2 - 1) := Nat.mul_le_mul_left _ hmono
        _ ≤ (2 ^ 52 + m2) * 2 ^ (e2 - 1) := hlow
  · by_cases he : e = 0
    · rw [if_pos he, if_pos he]; exact h
    · rw [if_neg he, if_neg he]
      exact mul_lt_mul_of_pos_right (by omega) (Nat.pow_pos (by norm_num))

/-- The magnitude is strictly increasing in the pattern, below the sign bit. -/
theorem mag_lt (a b : Nat) (hb : b < 2 ^ 63) (h : a < b) : mag a < mag b := by
  unfold mag
  apply mag_fields_lt
  · exact Nat.mod_lt _ (by norm_num)
  · unfold expField mantField
    omega

theorem mag_le (a b : Nat) (hb : b < 2 ^ 63) (h : a ≤ b) : mag a ≤ mag b := by
  rcases Nat.lt_or_ge a b with h1 | h1
  · exact le_of_lt (mag_lt a b hb h1)
  · have : a = b := le_antisymm h h1
    rw [this]

theorem le_of_mag_le (a b : Nat) (ha : a < 2 ^ 63) (h : mag a ≤ mag b) : a ≤ b := by
  by_contra hlt
  have := mag_lt b a ha (by omega)
  omega

theorem mag_zero : mag 0 = 0 := by decide

theorem eq_zero_of_mag (a : Nat) (ha : a < 2 ^ 63) (h : mag a = 0) : a = 0 := by
  have := le_of_mag_le a 0 ha (by rw [h]; exact Nat.zero_le _)
  omega

theorem mag_low (x : Nat) : mag (x % 2 ^ 63) = mag x := by
  unfold mag expField mantField
  have e1 : x % 2 ^ 63 / 2 ^ 52 % 2 ^ 11 = x / 2 ^ 52 % 2 ^ 11 := by omega
  have e2 : x % 2 ^ 63 % 2 ^ 52 = x % 2 ^ 52 := by omega
  rw [e1, e2]

/-- The value of a pattern: its sign times its magnitude, in units of 2^-1074. -/
theorem toRat_eq_mag (b : Nat) :
    toRat b = (if signBit b = 1 then -1 else 1) * ((mag b : ℚ) * 2 ^ (-1074 : ℤ)) := by
  unfold toRat mag
  congr 1
  by_cases h0 : expField b = 0
  · rw [if_pos h0, if_pos h0]
  · rw [if_neg h0, if_neg h0]
    have hp : (2 : ℚ) ^ ((expField b : ℤ) - 1075)
        = (2 : ℚ) ^ (expField b - 1) * 2 ^ (-1074 : ℤ) := by
      rw [← zpow_natCast, ← zpow_add₀ (by norm_num : (2 : ℚ) ≠ 0)]
      congr 1
      omega
    rw [hp]
    push_cast
    ring

theorem truncateM_le (nb x : Nat) (hnb : nb < 2 ^ 64) (hx : x < 2 ^ 64) :
    truncateM nb x ≤ x := by
  rw [truncateM_eq nb x hnb hx]
  split
  · exact Nat.zero_le _
  · split
    · exact le_refl _
    · exact Nat.sub_le _ _

theorem floor_mul_mono (m n d : Nat) (h : m ≤ n) : m - m % d ≤ n - n % d := by
  rw [← div_mul_eq_sub_mod, ← div_mul_eq_sub_mod]
  exact Nat.mul_le_mul_right _ (Nat.div_le_div_right h)

/-- On non-negative finite patterns truncateM is monotone in the pattern. -/
theorem truncateM_mono_pat (nb a b : Nat) (hnb : nb < 2 ^ 64) (hb : b < 2 ^ 63)
    (hbf : expField b ≠ 2047) (hab : a ≤ b) : truncateM nb a ≤ truncateM nb b := by
  have ha : a < 2 ^ 64 := by omega
  have hb64 : b < 2 ^ 64 := by omega
  by_cases ha0 : expField a = 0
  · rw [truncateM_expZero nb a hnb ha ha0, if_neg (by omega)]
    exact Nat.zero_le _
  · have haf : expField a ≠ 2047 := by unfold expField at *; omega
    have hb0 : expField b ≠ 0 := by unfold expField at *; omega
    rw [truncateM_normal nb a hnb ha ha0 haf, truncateM_normal nb b hnb hb64 hb0 hbf]
    have hra : mantField a % 2 ^ (toInt64 nb - unbExp a).toNat ≤ mantField a := Nat.mod_le _ _
    have hrb : mantField b % 2 ^ (toInt64 nb - unbExp b).toNat ≤ mantField b := Nat.mod_le _ _
    have sa := pattern_split a
    have sb := pattern_split b
    have za : signBit a = 0 := by unfold signBit; omega
    have zb : signBit b = 0 := by unfold signBit; omega
    have hma : mantField a < 2 ^ 52 := Nat.mod_lt _ (by norm_num)
    have hmb : mantField b < 2 ^ 52 := Nat.mod_lt _ (by norm_num)
    by_cases hee : expField a = expField b
    · have hu : unbExp a = unbExp b := by unfold unbExp; rw [hee]
      have hmm : mantField a ≤ mantField b := by omega
      have hfl := floor_mul_mono (mantField a) (mantField b)
        (2 ^ (toInt64 nb - unbExp b).toNat) hmm
      rw [hu] at hra ⊢
      split
      · exact hab
      · generalize mantField a % 2 ^ (toInt64 nb - unbExp b).toNat = ra at hra hfl ⊢
        generalize mantField b % 2 ^ (toInt64 nb - unbExp b).toNat = rb at hrb hfl ⊢
        omega
    · have hlt : expField a < expField b := by
        have h1 : a / 2 ^ 52 ≤ b / 2 ^ 52 := Nat.div_le_div_right hab
        unfold expField at *
        omega
      generalize mantField a % 2 ^ (toInt64 nb - unbExp a).toNat = ra at hra ⊢
      generalize mantField b % 2 ^ (toInt64 nb - unbExp b).toNat = rb at hrb ⊢
      split <;> split <;> omega

theorem expField_low (x : Nat) : expField (x % 2 ^ 63) = expField x := by
  unfold expField; omega

theorem mantField_low (x : Nat) : mantField (x % 2 ^ 63) = mantField x := by
  unfold mantField; omega

/-- The value of the result: the sign of x times the magnitude of the truncated
magnitude pattern. -/
theorem toRat_truncateM (nb x : Nat) (hnb : nb < 2 ^ 64) (hx : x < 2 ^ 64)
    (hf : expField x ≠ 2047) :
    toRat (truncateM nb x) =
      (if signBit x = 1 then -1 else 1) *
        ((mag (truncateM nb (x % 2 ^ 63)) : ℚ) * 2 ^ (-1074 : ℤ)) := by
  have hlow : x % 2 ^ 63 < 2 ^ 64 := by omega
  by_cases hs : signBit x = 1
  · rw [if_pos hs]
    by_cases h0 : expField x = 0
    · have h0l : expField (x % 2 ^ 63) = 0 := by rw [expField_low]; exact h0
      have hz : truncateM nb (x % 2 ^ 63) = 0 := by
        rw [truncateM_expZero nb _ hnb hlow h0l, if_neg (by omega)]
      have hv : toRat (truncateM nb x) = 0 := by
        rw [truncateM_expZero nb x hnb hx h0]
        split
        · exact toRat_zero_mant _ (by decide) (by decide)
        · exact toRat_zero_mant _ (by decide) (by decide)
      rw [hv, hz, mag_zero]
      simp
    · obtain ⟨hsT, -, -⟩ := truncateM_normal_fields nb x hnb hx h0 hf
      have h0l : expField (x % 2 ^ 63) ≠ 0 := by rw [expField_low]; exact h0
      have hfl : expField (x % 2 ^ 63) ≠ 2047 := by rw [expField_low]; exact hf
      have hu : unbExp (x % 2 ^ 63) = unbExp x := by unfold unbExp; rw [expField_low]
      have hrel : truncateM nb x % 2 ^ 63 = truncateM nb (x % 2 ^ 63) := by
        rw [truncateM_normal nb x hnb hx h0 hf, truncateM_normal nb _ hnb hlow h0l hfl, hu,
          mantField_low]
        have hr : mantField x % 2 ^ (toInt64 nb - unbExp x).toNat ≤ mantField x :=
          Nat.mod_le _ _
        have hmx : mantField x ≤ x % 2 ^ 63 := by unfold mantField; omega
        generalize mantField x % 2 ^ (toInt64 nb - unbExp x).toNat = r at hr ⊢
        unfold signBit at hs
        split <;> omega
      rw [toRat_eq_mag (truncateM nb x), hsT, if_pos hs, ← hrel, mag_low]
  · rw [if_neg hs]
    have hsx : x < 2 ^ 63 := by unfold signBit at hs; omega
    have hxl : x % 2 ^ 63 = x := Nat.mod_eq_of_lt hsx
    have hT := truncateM_le nb x hnb hx
    have hsT : ¬ signBit (truncateM nb x) = 1 := by unfold signBit; omega
    rw [toRat_eq_mag (truncateM nb x), if_neg hsT, hxl]

theorem toRat_sign_mag (x : Nat) :
    toRat x = (if signBit x = 1 then -1 else 1) * ((mag (x % 2 ^ 63) : ℚ) * 2 ^ (-1074 : ℤ)) := by
  rw [mag_low]; exact toRat_eq_mag x

theorem cast_mag_le (m n : Nat) (c : ℚ) (hc : 0 < c) (h : (m : ℚ) * c ≤ (n : ℚ) * c) :
    m ≤ n := by
  have := le_of_mul_le_mul_right h hc
  exact_mod_cast this

/-- Monotonicity of truncateM on finite patterns, comparing exact values. -/
theorem truncateM_mono_aux (nb x y : Nat) (hnb : nb < 2 ^ 64) (hx : x < 2 ^ 64)
    (hy : y < 2 ^ 64) (fx : expField x ≠ 2047) (fy : expField y ≠ 2047)
    (h : toRat x ≤ toRat y) : toRat (truncateM nb x) ≤ toRat (truncateM nb y) := by
  rw [toRat_sign_mag x, toRat_sign_mag y] at h
  rw [toRat_truncateM nb x hnb hx fx, toRat_truncateM nb y hnb hy fy]
  have hc : (0 : ℚ) < 2 ^ (-1074 : ℤ) := by positivity
  have ha : x % 2 ^ 63 < 2 ^ 63 := Nat.mod_lt _ (by norm_num)
  have hb : y % 2 ^ 63 < 2 ^ 63 := Nat.mod_lt _ (by norm_num)
  have fa : expField (x % 2 ^ 63) ≠ 2047 := by rw [expField_low]; exact fx
  have fb : expField (y % 2 ^ 63) ≠ 2047 := by rw [expField_low]; exact fy
  have hTa : truncateM nb (x % 2 ^ 63) < 2 ^ 63 := by
    have := truncateM_le nb (x % 2 ^ 63) hnb (by omega); omega
  have hTb : truncateM nb (y % 2 ^ 63) < 2 ^ 63 := by
    have := truncateM_le nb (y % 2 ^ 63) hnb (by omega); omega
  have nx : (0 : ℚ) ≤ (mag (truncateM nb (x % 2 ^ 63)) : ℚ) * 2 ^ (-1074 : ℤ) := by positivity
  have ny : (0 : ℚ) ≤ (mag (truncateM nb (y % 2 ^ 63)) : ℚ) * 2 ^ (-1074 : ℤ) := by positivity
  have mx : (0 : ℚ) ≤ (mag (x % 2 ^ 63) : ℚ) * 2 ^ (-1074 : ℤ) := by positivity
  have my : (0 : ℚ) ≤ (mag (y % 2 ^ 63) : ℚ) * 2 ^ (-1074 : ℤ) := by positivity
  by_cases sx : signBit x = 1 <;> by_cases sy : signBit y = 1
  · -- both negative
    rw [if_pos sx, if_pos sy] at h ⊢
    have hm : mag (y % 2 ^ 63) ≤ mag (x % 2 ^ 63) := cast_mag_le _ _ _ hc (by linarith)
    have hp := le_of_mag_le _ _ hb hm
    have hT := truncateM_mono_pat nb _ _ hnb ha fa hp
    have hmT : ((mag (truncateM nb (y % 2 ^ 63)) : ℚ)) ≤ (mag (truncateM nb (x % 2 ^ 63)) : ℚ) := by
      exact_mod_cast mag_le _ _ hTa hT
    have := mul_le_mul_of_nonneg_right hmT hc.le
    linarith
  · -- x negative, y not
    rw [if_pos sx, if_neg sy]
    linarith
  · -- x not negative, y negative: both are zeros
    rw [if_neg sx, if_pos sy] at h ⊢
    have hx0 : (mag (x % 2 ^ 63) : ℚ) * 2 ^ (-1074 : ℤ) = 0 := by linarith
    have hy0 : (mag (y % 2 ^ 63) : ℚ) * 2 ^ (-1074 : ℤ) = 0 := by linarith
    have hmx : mag (x % 2 ^ 63) = 0 := by
      rcases mul_eq_zero.1 hx0 with h1 | h1
      · exact_mod_cast h1
      · exact absurd h1 hc.ne'
    have hmy : mag (y % 2 ^ 63) = 0 := by
      rcases mul_eq_zero.1 hy0 with h1 | h1
      · exact_mod_cast h1
      · exact absurd h1 hc.ne'
    rw [eq_zero_of_mag _ ha hmx, eq_zero_of_mag _ hb hmy, truncateM_zero nb hnb, mag_zero]
    simp
  · -- neither negative
    rw [if_neg sx, if_neg sy] at h ⊢
    have hm : mag (x % 2 ^ 63) ≤ mag (y % 2 ^ 63) := cast_mag_le _ _ _ hc (by linarith)
    have hp := le_of_mag_le _ _ ha hm
    have hT := truncateM_mono_pat nb _ _ hnb hb fb hp
    have hmT : ((mag (truncateM nb (x % 2 ^ 63)) : ℚ)) ≤ (mag (truncateM nb (y % 2 ^ 63)) : ℚ) := by
      exact_mod_cast mag_le _ _ hTb hT
    have := mul_le_mul_of_nonneg_right hmT hc.le
    linarith

/-! ## The class-selection loop on activations that may be NaN -/

/-- C1 (counterexample): 1.5 is finite and the width is 52, yet truncateM returns 1.0:
the low 52 stored significand bits are cleared at unbiased exponent 0. -/
theorem truncateM_width52_counterexample :
    expField 0x3FF8000000000000 ≠ 2047 ∧ 52 ≤ (52 : Nat) ∧
      truncateM 52 0x3FF8000000000000 = 0x3FF0000000000000 ∧
      truncateM 52 0x3FF8000000000000 ≠ 0x3FF8000000000000 := by
  decide

/-- C1 (amended): for every finite x and every width of at least 52, with w = int64(width)
the width as the code reads it (w = width below 2^63, w = width - 2^64 from 2^63 on),
truncateM returns x unchanged exactly when x is +0 or -0, or x is normal and either w is at
most the unbiased exponent of x or the low (w - exponent) bits of the stored significand of
x are already zero. -/
theorem truncateM_fixed_iff (nb x : Nat) (_hw : 52 ≤ nb) (hnb : nb < 2 ^ 64)
    (hx : x < 2 ^ 64) (hfin : expField x ≠ 2047) :
    truncateM nb x = x ↔
      (x = 0 ∨ x = 2 ^ 63 ∨
        (expField x ≠ 0 ∧
          (toInt64 nb ≤ unbExp x ∨
            mantField x % 2 ^ (toInt64 nb - unbExp x).toNat = 0))) := by
  by_cases h0 : expField x = 0
  · rw [truncateM_expZero nb x hnb hx h0]
    by_cases hz : x = 2 ^ 63
    · simp [hz]
    · simp only [hz, if_false, h0, ne_eq, not_true_eq_false, false_and, or_false]
      exact eq_comm
  · rw [truncateM_normal nb x hnb hx h0 hfin]
    have hm : mantField x ≤ x := Nat.mod_le _ _
    have hr : mantField x % 2 ^ (toInt64 nb - unbExp x).toNat ≤ mantField x := Nat.mod_le _ _
    have hx0 : x ≠ 0 := by rintro rfl; exact h0 (by decide)
    have hx1 : x ≠ 2 ^ 63 := by rintro rfl; exact h0 (by decide)
    by_cases hle : toInt64 nb ≤ unbExp x
    · simp [hle, h0]
    · simp only [hle, if_false, hx0, hx1, h0, ne_eq, not_false_eq_true, true_and, false_or]
      generalize mantField x % 2 ^ (toInt64 nb - unbExp x).toNat = r at hr ⊢
      omega

/-- C1 (witness): width 52 at the finite value 2^52 + 1, whose unbiased exponent is 52,
and the wrapped width 2^64 - 1 (read as -1) at 2^-3 * (1 + 2^-50), whose low 2 stored
bits are zero. -/
theorem truncateM_fixed_iff_witness :
    52 ≤ (52 : Nat) ∧ (52 : Nat) < 2 ^ 64 ∧ 0x4330000000000001 < 2 ^ 64 ∧
      expField 0x4330000000000001 ≠ 2047 ∧
      truncateM 52 0x4330000000000001 = 0x4330000000000001 ∧
      52 ≤ (2 ^ 64 - 1 : Nat) ∧ (2 ^ 64 - 1 : Nat) < 2 ^ 64 ∧ 0x3FC0000000000004 < 2 ^ 64 ∧
      expField 0x3FC0000000000004 ≠ 2047 ∧
      truncateM (2 ^ 64 - 1) 0x3FC0000000000004 = 0x3FC0000000000004 :=
  ⟨by decide, by decide, by decide, by decide,
    (truncateM_fixed_iff 52 0x4330000000000001 (by decide) (by decide) (by decide)
      (by decide)).2 (Or.inr (Or.inr ⟨by decide, Or.inl (by decide)⟩)),
    by decide, by decide, by decide, by decide,
    (truncateM_fixed_iff (2 ^ 64 - 1) 0x3FC0000000000004 (by decide) (by decide) (by decide)
      (by decide)).2 (Or.inr (Or.inr ⟨by decide, Or.inr (by decide)⟩))⟩

/-- C2: truncateM is idempotent on every 64-bit pattern (NaNs, infinities, zeros and
subnormals included), for every width. -/
theorem truncateM_idempotent (nb x : Nat) (hnb : nb < 2 ^ 64) (hx : x < 2 ^ 64) :
    truncateM nb (truncateM nb x) = truncateM nb x :=
  truncateM_idem_aux nb x hnb hx

/-- C2 (witness): the default width 24 and a pattern with low significand bits set. -/
theorem truncateM_idempotent_witness :
    (24 : Nat) < 2 ^ 64 ∧ 0x3FF0000000ABCDEF < 2 ^ 64 ∧
      truncateM 24 (truncateM 24 0x3FF0000000ABCDEF) = truncateM 24 0x3FF0000000ABCDEF :=
  ⟨by decide, by decide, truncateM_idempotent 24 0x3FF0000000ABCDEF (by decide) (by decide)⟩

/-- C3 (counterexample): at width 24 the normal value 1 + 2^-28 (unbiased exponent 0 < 24)
is returned unchanged, so its significand bit 24 survives below the top 24 bits. -/
theorem truncateM_topBits_counterexample :
    expField 0x3FF0000001000000 ≠ 0 ∧ expField 0x3FF0000001000000 ≠ 2047 ∧
      unbExp 0x3FF0000001000000 < 24 ∧
      truncateM 24 0x3FF0000001000000 = 0x3FF0000001000000 ∧
      ¬ keepsTopBits 24 0x3FF0000001000000 (truncateM 24 0x3FF0000001000000) := by
  unfold keepsTopBits
  decide

/-- C3 (amended): for every normal finite x and every width below 2^63 above the unbiased
exponent of x, truncateM keeps sign and exponent and clears exactly the low
(width - exponent) bits of the stored significand; every higher stored bit is kept, so
the number of surviving significant bits depends on the exponent. -/
theorem truncateM_clears_low_bits (nb x : Nat) (hnb : nb < 2 ^ 63) (hx : x < 2 ^ 64)
    (h0 : expField x ≠ 0) (h1 : expField x ≠ 2047) (hlt : unbExp x < (nb : Int)) :
    signBit (truncateM nb x) = signBit x ∧ expField (truncateM nb x) = expField x ∧
      ∀ j, (mantField (truncateM nb x)).testBit j =
        (decide (((nb : Int) - unbExp x).toNat ≤ j) && (mantField x).testBit j) := by
  obtain ⟨hs, he, hm⟩ := truncateM_normal_fields nb x (by omega) hx h0 h1
  rw [toInt64_small nb hnb] at hm
  refine ⟨hs, he, fun j => ?_⟩
  rw [hm, if_neg (by omega), ← div_mul_eq_sub_mod, Nat.mul_comm, Nat.testBit_mul_pow_two,
    ← Nat.shiftRight_eq_div_pow, Nat.testBit_shiftRight]
  by_cases hj : ((nb : Int) - unbExp x).toNat ≤ j
  · have e : ((nb : Int) - unbExp x).toNat + (j - ((nb : Int) - unbExp x).toNat) = j := by omega
    simp [hj, e]
  · simp [hj]

/-- C3 (witness): width 24 at 1 + 2^-28 + 2^-52. -/
theorem truncateM_clears_low_bits_witness :
    (24 : Nat) < 2 ^ 63 ∧ 0x3FF0000001000001 < 2 ^ 64 ∧ expField 0x3FF0000001000001 ≠ 0 ∧
      expField 0x3FF0000001000001 ≠ 2047 ∧ unbExp 0x3FF0000001000001 < ((24 : Nat) : Int) ∧
      signBit (truncateM 24 0x3FF0000001000001) = signBit 0x3FF0000001000001 :=
  ⟨by decide, by decide, by decide, by decide, by decide,
    (truncateM_clears_low_bits 24 0x3FF0000001000001 (by decide) (by decide) (by decide)
      (by decide) (by decide)).1⟩

/-- C4 (counterexample): at width 0 the normal value 1.5 is returned unchanged, with a
nonzero stored significand. -/
theorem truncateM_width0_counterexample :
    expField 0x3FF8000000000000 ≠ 0 ∧ expField 0x3FF8000000000000 ≠ 2047 ∧
      truncateM 0 0x3FF8000000000000 = 0x3FF8000000000000 ∧
      mantField (truncateM 0 0x3FF8000000000000) ≠ 0 := by
  decide

/-- C4 (amended): at width 0, a normal finite x with unbiased exponent at most -53 keeps
only the implicit bit (stored significand zero, same sign and exponent, value
sign * 2^exponent); a normal finite x with unbiased exponent at least 0 is unchanged; in
between the low -exponent bits of the stored significand are cleared. -/
theorem truncateM_width0 (x : Nat) (hx : x < 2 ^ 64) (h0 : expField x ≠ 0)
    (h1 : expField x ≠ 2047) :
    (unbExp x ≤ -53 →
      mantField (truncateM 0 x) = 0 ∧ expField (truncateM 0 x) = expField x ∧
        signBit (truncateM 0 x) = signBit x ∧
        toRat (truncateM 0 x) = (if signBit x = 1 then -1 else 1) * (2 : ℚ) ^ unbExp x) ∧
    (0 ≤ unbExp x → truncateM 0 x = x) ∧
    (unbExp x < 0 →
      mantField (truncateM 0 x) = mantField x - mantField x % 2 ^ (-unbExp x).toNat) := by
  obtain ⟨hs, he, hm⟩ := truncateM_normal_fields 0 x (by norm_num) hx h0 h1
  have ht : toInt64 0 = 0 := by decide
  rw [ht] at hm
  refine ⟨fun hle => ?_, fun hge => ?_, fun hlt => ?_⟩
  · have hm0 : mantField (truncateM 0 x) = 0 := by
      rw [hm, if_neg (by omega)]
      have hlt : mantField x < 2 ^ (0 - unbExp x).toNat := by
        have h52 : mantField x < 2 ^ 52 := Nat.mod_lt _ (by norm_num)
        have : (2 : Nat) ^ 52 ≤ 2 ^ (0 - unbExp x).toNat :=
          Nat.pow_le_pow_right (by norm_num) (by omega)
        omega
      rw [Nat.mod_eq_of_lt hlt]
      omega
    refine ⟨hm0, he, hs, ?_⟩
    rw [toRat_pow_two _ (by rw [he]; exact h0) hm0, hs]
    unfold unbExp
    rw [he]
  · rw [truncateM_normal 0 x (by norm_num) hx h0 h1, ht, if_pos hge]
  · rw [hm, if_neg (by omega)]
    simp

/-- C4 (witness): width 0 at 2^-60 * (1 + 2^-52), unbiased exponent -60. -/
theorem truncateM_width0_witness :
    0x3C30000000000001 < 2 ^ 64 ∧ expField 0x3C30000000000001 ≠ 0 ∧
      expField 0x3C30000000000001 ≠ 2047 ∧ unbExp 0x3C30000000000001 ≤ -53 ∧
      mantField (truncateM 0 0x3C30000000000001) = 0 :=
  ⟨by decide, by decide, by decide, by decide,
    ((truncateM_width0 0x3C30000000000001 (by decide) (by decide) (by decide)).1
      (by decide)).1⟩

/-- C5 (counterexample): at width 0 the negative subnormal with pattern 0x8000000000000001
becomes +0: the sign bit changes and the magnitude is not above half of the input. -/
theorem truncateM_width0_all_counterexample :
    truncateM 0 0x8000000000000001 = 0 ∧
      signBit (truncateM 0 0x8000000000000001) ≠ signBit 0x8000000000000001 ∧
      ¬ (|toRat 0x8000000000000001| / 2 < |toRat (truncateM 0 0x8000000000000001)|) := by
  have h : truncateM 0 0x8000000000000001 = 0 := by decide
  refine ⟨h, by decide, ?_⟩
  rw [h, toRat_zero_mant 0 (by decide) (by decide), abs_zero, not_lt]
  positivity

/-- C5 (amended): at width 0, for every normal finite x the result has the sign bit and the
biased exponent field of x, and its magnitude is above half of, and at most, that of x. -/
theorem truncateM_width0_magnitude (x : Nat) (hx : x < 2 ^ 64) (h0 : expField x ≠ 0)
    (h1 : expField x ≠ 2047) :
    signBit (truncateM 0 x) = signBit x ∧ expField (truncateM 0 x) = expField x ∧
      |toRat x| / 2 < |toRat (truncateM 0 x)| ∧ |toRat (truncateM 0 x)| ≤ |toRat x| := by
  obtain ⟨hs, he, hm⟩ := truncateM_normal_fields 0 x (by norm_num) hx h0 h1
  have hle : mantField (truncateM 0 x) ≤ mantField x := by
    rw [hm]; split
    · exact le_refl _
    · exact Nat.sub_le _ _
  have h52 : mantField x < 2 ^ 52 := Nat.mod_lt _ (by norm_num)
  refine ⟨hs, he, ?_⟩
  rw [abs_toRat_normal x h0, abs_toRat_normal _ (by rw [he]; exact h0), he]
  have hP : (0 : ℚ) < 2 ^ ((expField x : ℤ) - 1075) := by positivity
  have hle' : ((2 ^ 52 + mantField (truncateM 0 x) : Nat) : ℚ) ≤ ((2 ^ 52 + mantField x : Nat) : ℚ) := by
    exact_mod_cast Nat.add_le_add_left hle _
  have hlt' : ((2 ^ 52 + mantField x : Nat) : ℚ) < 2 * ((2 ^ 52 + mantField (truncateM 0 x) : Nat) : ℚ) := by
    have : 2 ^ 52 + mantField x < 2 * (2 ^ 52 + mantField (truncateM 0 x)) := by omega
    exact_mod_cast this
  refine ⟨?_, ?_⟩
  · rw [div_lt_iff₀ (by norm_num : (0 : ℚ) < 2)]
    nlinarith
  · exact mul_le_mul_of_nonneg_right hle' hP.le

/-- C5 (witness): width 0 at the normal value 0.75. -/
theorem truncateM_width0_magnitude_witness :
    0x3FE8000000000000 < 2 ^ 64 ∧ expField 0x3FE8000000000000 ≠ 0 ∧
      expField 0x3FE8000000000000 ≠ 2047 ∧
      |toRat 0x3FE8000000000000| / 2 < |toRat (truncateM 0 0x3FE8000000000000)| :=
  ⟨by decide, by decide, by decide,
    (truncateM_width0_magnitude 0x3FE8000000000000 (by decide) (by decide) (by decide)).2.2.1⟩

/-- C6 (counterexample): at width 24 the positive subnormal with pattern 1 is finite and
above 0 but its result is not above 0, and the negative subnormal with pattern
0x8000000000000001 is below 0 but its result is +0, with the sign bit cleared. -/
theorem truncateM_sign_counterexample :
    expField 1 ≠ 2047 ∧ fltGtZero 1 = true ∧ fltGtZero (truncateM 24 1) = false ∧
      expField 0x8000000000000001 ≠ 2047 ∧ fltLtZero 0x8000000000000001 = true ∧
      fltLtZero (truncateM 24 0x8000000000000001) = false ∧
      signBit (truncateM 24 0x8000000000000001) ≠ signBit 0x8000000000000001 := by
  decide

/-- C6 (amended): truncateM preserves the sign of every normal finite x, for every width:
the sign bit is unchanged, a negative x gives a negative result and a positive x a
positive result. -/
theorem truncateM_preserves_sign (nb x : Nat) (hnb : nb < 2 ^ 64) (hx : x < 2 ^ 64)
    (h0 : expField x ≠ 0) (h1 : expField x ≠ 2047) :
    signBit (truncateM nb x) = signBit x ∧
      (fltLtZero x = true → fltLtZero (truncateM nb x) = true) ∧
      (fltGtZero x = true → fltGtZero (truncateM nb x) = true) := by
  obtain ⟨hs, he, -⟩ := truncateM_normal_fields nb x hnb hx h0 h1
  have h0' : expField (truncateM nb x) ≠ 0 := by rw [he]; exact h0
  have h1' : expField (truncateM nb x) ≠ 2047 := by rw [he]; exact h1
  rw [fltLtZero_normal x h0 h1, fltLtZero_normal _ h0' h1', fltGtZero_normal x h0 h1,
    fltGtZero_normal _ h0' h1', hs]
  exact ⟨rfl, id, id⟩

/-- C6 (witness): width 24 at the normal value -1.5. -/
theorem truncateM_preserves_sign_witness :
    (24 : Nat) < 2 ^ 64 ∧ 0xBFF8000000000001 < 2 ^ 64 ∧ expField 0xBFF8000000000001 ≠ 0 ∧
      expField 0xBFF8000000000001 ≠ 2047 ∧
      signBit (truncateM 24 0xBFF8000000000001) = signBit 0xBFF8000000000001 :=
  ⟨by decide, by decide, by decide, by decide,
    (truncateM_preserves_sign 24 0xBFF8000000000001 (by decide) (by decide) (by decide)
      (by decide)).1⟩

/-- C7: for every pattern whose biased exponent field is 0 (both zeros and every
subnormal) and every width, truncateM returns a zero: the pattern of +0, except that -0
is returned as -0; its value is exactly 0, and truncateM(0) = 0. -/
theorem truncateM_expZero_is_zero (nb x : Nat) (hnb : nb < 2 ^ 64) (hx : x < 2 ^ 64)
    (h0 : expField x = 0) :
    truncateM nb x = (if x = 2 ^ 63 then 2 ^ 63 else 0) ∧ toRat (truncateM nb x) = 0 ∧
      truncateM nb 0 = 0 := by
  have h := truncateM_expZero nb x hnb hx h0
  refine ⟨h, ?_, truncateM_zero nb hnb⟩
  rw [h]
  split
  · exact toRat_zero_mant _ (by decide) (by decide)
  · exact toRat_zero_mant _ (by decide) (by decide)

/-- C7 (witness): width 24 at the largest positive subnormal. -/
theorem truncateM_expZero_is_zero_witness :
    (24 : Nat) < 2 ^ 64 ∧ 0x000FFFFFFFFFFFFF < 2 ^ 64 ∧ expField 0x000FFFFFFFFFFFFF = 0 ∧
      toRat (truncateM 24 0x000FFFFFFFFFFFFF) = 0 :=
  ⟨by decide, by decide, by decide,
    (truncateM_expZero_is_zero 24 0x000FFFFFFFFFFFFF (by decide) (by decide)
      (by decide)).2.1⟩

/-- C8: for every normal finite x, of either sign, and every width that is at most the
unbiased exponent of x, truncateM returns the bit pattern of x. -/
theorem truncateM_large_exponent (nb x : Nat) (hx : x < 2 ^ 64) (h0 : expField x ≠ 0)
    (h1 : expField x ≠ 2047) (hge : (nb : Int) ≤ unbExp x) : truncateM nb x = x := by
  have he : expField x < 2 ^ 11 := Nat.mod_lt _ (by norm_num)
  have hnb : nb < 2 ^ 63 := by unfold unbExp at hge; omega
  rw [truncateM_normal nb x (by omega) hx h0 h1, toInt64_small nb hnb, if_pos hge]

/-- C8 (witness): width 24 at -(2^24 + 2^-28), unbiased exponent 24. -/
theorem truncateM_large_exponent_witness :
    0xC170000000000001 < 2 ^ 64 ∧ expField 0xC170000000000001 ≠ 0 ∧
      expField 0xC170000000000001 ≠ 2047 ∧ ((24 : Nat) : Int) ≤ unbExp 0xC170000000000001 ∧
      truncateM 24 0xC170000000000001 = 0xC170000000000001 :=
  ⟨by decide, by decide, by decide, by decide,
    truncateM_large_exponent 24 0xC170000000000001 (by decide) (by decide) (by decide)
      (by decide)⟩

/-! ## Claims on the network -/

/-- C9: on every well-formed network and every input of length inputs, Predict returns
T(sigmoid(T(outputWeights * T(sigmoid(T(hiddenWeights * input)))))), with T the elementwise
truncateM at the current width; hence every entry v of the result satisfies
truncateM(v) = v. -/
theorem Predict_truncates_each_stage (F : FloatOps) (nb : Nat) (net : Network) (x : List Nat)
    (hnb : nb < 2 ^ 64) (hF : ∀ a b, F.div a b < 2 ^ 64) (hnet : net.WF)
    (hx : (x.length : Int) = net.inputs) :
    Network.Predict F nb net x = .ok (predictSpec F nb net x) ∧
      (predictSpec F nb net x).rows = net.outputWeights.rows ∧
      (predictSpec F nb net x).cols = 1 ∧
      ∀ v ∈ (predictSpec F nb net x).data, truncateM nb v = v := by
  refine ⟨Predict_eq_aux F nb net x hnet hx, rfl, rfl, ?_⟩
  intro v hv
  simp only [predictSpec, Dense.mapD, List.mem_map] at hv
  obtain ⟨w, ⟨z, -, rfl⟩, rfl⟩ := hv
  exact truncateM_idem_aux nb _ hnb (hF _ _)

/-- C9 (witness): the 2-2-1 network with all weights 0.5 on the input (0.5, 0.1), width 24. -/
theorem Predict_truncates_each_stage_witness :
    (24 : Nat) < 2 ^ 64 ∧ (∀ a b, toyOps.div a b < 2 ^ 64) ∧ toyNet.WF ∧
      ((([0x3FE0000000000000, 0x3FB999999999999A] : List Nat).length : Int) = toyNet.inputs) ∧
      Network.Predict toyOps 24 toyNet [0x3FE0000000000000, 0x3FB999999999999A]
        = .ok (predictSpec toyOps 24 toyNet [0x3FE0000000000000, 0x3FB999999999999A]) :=
  ⟨by decide, toyOps_div_lt, toyNet_WF, rfl,
    (Predict_truncates_each_stage toyOps 24 toyNet [0x3FE0000000000000, 0x3FB999999999999A]
      (by decide) toyOps_div_lt toyNet_WF rfl).1⟩

/-- C10: on every well-formed network, input of length inputs and target of length outputs,
Train computes h = sigmoid(Wh*x) and o = sigmoid(Wo*h) without truncation and leaves
outputWeights = T(Wo + r * (((t - o) .* (o .* (1 - o))) * h^T)) and
hiddenWeights = T(Wh + r * (((Wo^T * (t - o)) .* (h .* (1 - h))) * x^T)), with T the
elementwise truncateM and Wo the output weights before the step. -/
theorem Train_closed_form (F : FloatOps) (nb : Nat) (net : Network) (x t : List Nat)
    (hnet : net.WF) (hx : (x.length : Int) = net.inputs)
    (ht : (t.length : Int) = net.outputs) :
    Network.Train F nb net x t = .ok (trainSpec F nb net x t) :=
  Train_eq_aux F nb net x t hnet hx ht

/-- C10 (witness): one step of the 2-2-1 network with all weights 0.5 on the input
(0.5, 0.1) and the target (1.0), width 24. -/
theorem Train_closed_form_witness :
    toyNet.WF ∧
      ((([0x3FE0000000000000, 0x3FB999999999999A] : List Nat).length : Int) = toyNet.inputs) ∧
      ((([0x3FF0000000000000] : List Nat).length : Int) = toyNet.outputs) ∧
      Network.Train toyOps 24 toyNet [0x3FE0000000000000, 0x3FB999999999999A]
          [0x3FF0000000000000]
        = .ok (trainSpec toyOps 24 toyNet [0x3FE0000000000000, 0x3FB999999999999A]
          [0x3FF0000000000000]) :=
  ⟨toyNet_WF, rfl, rfl,
    Train_closed_form toyOps 24 toyNet [0x3FE0000000000000, 0x3FB999999999999A]
      [0x3FF0000000000000] toyNet_WF rfl rfl⟩

/-! ## Claims on the remaining behaviour of truncateM -/

/-- C19: for every width of at most 1024, truncateM returns +Inf, -Inf and every NaN
pattern (either sign bit, any payload) unchanged. -/
theorem truncateM_nonfinite (nb x : Nat) (hnb : nb ≤ 1024) (hx : x < 2 ^ 64)
    (h : expField x = 2047) :
    truncateM nb x = x ∧ truncateM nb 0x7FF0000000000000 = 0x7FF0000000000000 ∧
      truncateM nb 0xFFF0000000000000 = 0xFFF0000000000000 :=
  ⟨truncateM_nonfinite_aux nb x hnb hx h,
    truncateM_nonfinite_aux nb _ hnb (by decide) (by decide),
    truncateM_nonfinite_aux nb _ hnb (by decide) (by decide)⟩

/-- C19 (witness): width 52 at a NaN with the sign bit set and payload 1. -/
theorem truncateM_nonfinite_witness :
    (52 : Nat) ≤ 1024 ∧ 0xFFF0000000000001 < 2 ^ 64 ∧ expField 0xFFF0000000000001 = 2047 ∧
      truncateM 52 0xFFF0000000000001 = 0xFFF0000000000001 :=
  ⟨by decide, by decide, by decide,
    (truncateM_nonfinite 52 0xFFF0000000000001 (by decide) (by decide) (by decide)).1⟩

/-- C15 (counterexample): at width 2^63 the normal value 1.5 has unbiased exponent 0 below
the width, but int64(2^63) is negative, so truncateM returns 1.5 unchanged, while the
formula of the claim (an all-zero mask) gives the pattern of 1.0. -/
theorem truncateM_formula_counterexample :
    expField 0x3FF8000000000000 ≠ 0 ∧ expField 0x3FF8000000000000 ≠ 2047 ∧
      unbExp 0x3FF8000000000000 < ((2 ^ 63 : Nat) : Int) ∧
      truncateM (2 ^ 63) 0x3FF8000000000000 = 0x3FF8000000000000 ∧
      truncateM (2 ^ 63) 0x3FF8000000000000 ≠
        signBit 0x3FF8000000000000 * 2 ^ 63 + expField 0x3FF8000000000000 * 2 ^ 52 +
          (((mantField 0x3FF8000000000000 + 2 ^ 52) &&&
            getBitMask (((2 ^ 63 : Nat) : Int) - unbExp 0x3FF8000000000000).toNat) &&&
              (2 ^ 52 - 1)) := by
  decide

/-- C15 (amended): for every normal finite x with sign bit s, biased exponent e and stored
significand m, and every width bits below 2^63 with e - 1023 < bits, the bit pattern of
truncateM(x) is s*2^63 + e*2^52 + (((m + 2^52) AND (allOnes << keepBits)) AND (2^52 - 1))
with keepBits = bits - (e - 1023), a shift count of 64 or more giving an all-zero mask;
for keepBits below 64 the mask clears exactly the low keepBits bits of the 53-bit
significand. -/
theorem truncateM_bit_formula (nb x : Nat) (hnb : nb < 2 ^ 63) (hx : x < 2 ^ 64)
    (h0 : expField x ≠ 0) (h1 : expField x ≠ 2047) (hlt : unbExp x < (nb : Int)) :
    truncateM nb x =
        signBit x * 2 ^ 63 + expField x * 2 ^ 52 +
          (((mantField x + 2 ^ 52) &&& getBitMask ((nb : Int) - unbExp x).toNat) &&&
            (2 ^ 52 - 1)) ∧
      (((nb : Int) - unbExp x).toNat < 64 →
        (mantField x + 2 ^ 52) &&& getBitMask ((nb : Int) - unbExp x).toNat =
          (mantField x + 2 ^ 52) / 2 ^ ((nb : Int) - unbExp x).toNat *
            2 ^ ((nb : Int) - unbExp x).toNat) ∧
      (64 ≤ ((nb : Int) - unbExp x).toNat → getBitMask ((nb : Int) - unbExp x).toNat = 0) := by
  have hm : mantField x < 2 ^ 52 := Nat.mod_lt _ (by norm_num)
  refine ⟨?_, fun hk => ?_, fun hk => ?_⟩
  · rw [truncateM_normal nb x (by omega) hx h0 h1, toInt64_small nb hnb, if_neg (by omega),
      masked_stored _ _ hm]
    have hr : mantField x % 2 ^ ((nb : Int) - unbExp x).toNat ≤ mantField x := Nat.mod_le _ _
    have hs := pattern_split x
    generalize mantField x % 2 ^ ((nb : Int) - unbExp x).toNat = r at hr ⊢
    omega
  · rw [and_getBitMask _ _ (by omega), if_pos hk]
  · unfold getBitMask
    rw [if_neg (by omega)]

/-- C15 (witness): width 24 at 1 + 2^-28 + 2^-52. -/
theorem truncateM_bit_formula_witness :
    (24 : Nat) < 2 ^ 63 ∧ 0x3FF0000001000001 < 2 ^ 64 ∧ expField 0x3FF0000001000001 ≠ 0 ∧
      expField 0x3FF0000001000001 ≠ 2047 ∧ unbExp 0x3FF0000001000001 < ((24 : Nat) : Int) ∧
      truncateM 24 0x3FF0000001000001 =
        signBit 0x3FF0000001000001 * 2 ^ 63 + expField 0x3FF0000001000001 * 2 ^ 52 +
          (((mantField 0x3FF0000001000001 + 2 ^ 52) &&&
            getBitMask (((24 : Nat) : Int) - unbExp 0x3FF0000001000001).toNat) &&&
              (2 ^ 52 - 1)) :=
  ⟨by decide, by decide, by decide, by decide, by decide,
    (truncateM_bit_formula 24 0x3FF0000001000001 (by decide) (by decide) (by decide)
      (by decide) (by decide)).1⟩

/-- C18 (counterexample): at width 2^63 and x = 1.5 the difference width - exponent is at
least 53, yet truncateM returns 1.5, whose stored significand is not zero: the result is
not sign(x) * 2^exponent(x). -/
theorem truncateM_leading_bit_counterexample :
    expField 0x3FF8000000000000 ≠ 0 ∧ expField 0x3FF8000000000000 ≠ 2047 ∧
      53 ≤ ((2 ^ 63 : Nat) : Int) - unbExp 0x3FF8000000000000 ∧
      truncateM (2 ^ 63) 0x3FF8000000000000 = 0x3FF8000000000000 ∧
      mantField (truncateM (2 ^ 63) 0x3FF8000000000000) ≠ 0 ∧
      truncateM (2 ^ 63) 0x3FF8000000000000 ≠ 0x3FF0000000000000 := by
  decide

/-- C18 (amended): for every width and every normal finite x the result has the sign bit
and the biased exponent field of x and 2^exponent(x) <= |truncateM(x)| <= |x|; when
int64(width) - exponent(x) >= 53 (for a width below 2^63: width - exponent(x) >= 53) the
result is exactly sign(x) * 2^exponent(x), which is not 0. -/
theorem truncateM_never_flushes_normal (nb x : Nat) (hnb : nb < 2 ^ 64) (hx : x < 2 ^ 64)
    (h0 : expField x ≠ 0) (h1 : expField x ≠ 2047) :
    signBit (truncateM nb x) = signBit x ∧ expField (truncateM nb x) = expField x ∧
      (2 : ℚ) ^ unbExp x ≤ |toRat (truncateM nb x)| ∧
      |toRat (truncateM nb x)| ≤ |toRat x| ∧
      (53 ≤ toInt64 nb - unbExp x →
        mantField (truncateM nb x) = 0 ∧
          toRat (truncateM nb x) = (if signBit x = 1 then -1 else 1) * (2 : ℚ) ^ unbExp x ∧
          toRat (truncateM nb x) ≠ 0) := by
  obtain ⟨hs, he, hm⟩ := truncateM_normal_fields nb x hnb hx h0 h1
  obtain ⟨hb1, hb2⟩ := truncateM_normal_bounds nb x hnb hx h0 h1
  refine ⟨hs, he, hb1, hb2, fun hk => ?_⟩
  have hm0 : mantField (truncateM nb x) = 0 := by
    rw [hm, if_neg (by omega)]
    have hlt : mantField x < 2 ^ (toInt64 nb - unbExp x).toNat := by
      have h52 : mantField x < 2 ^ 52 := Nat.mod_lt _ (by norm_num)
      have : (2 : Nat) ^ 52 ≤ 2 ^ (toInt64 nb - unbExp x).toNat :=
        Nat.pow_le_pow_right (by norm_num) (by omega)
      omega
    rw [Nat.mod_eq_of_lt hlt]
    omega
  have hv : toRat (truncateM nb x) = (if signBit x = 1 then -1 else 1) * (2 : ℚ) ^ unbExp x := by
    rw [toRat_pow_two _ (by rw [he]; exact h0) hm0, hs]
    unfold unbExp
    rw [he]
  refine ⟨hm0, hv, ?_⟩
  rw [hv]
  have hp : (2 : ℚ) ^ unbExp x ≠ 0 := zpow_ne_zero _ (by norm_num)
  split
  · simpa using hp
  · simpa using hp

/-- C18 (witness): width 24 at 2^-60 * (1 + 2^-52), where width - exponent is 84. -/
theorem truncateM_never_flushes_normal_witness :
    (24 : Nat) < 2 ^ 64 ∧ 0x3C30000000000001 < 2 ^ 64 ∧ expField 0x3C30000000000001 ≠ 0 ∧
      expField 0x3C30000000000001 ≠ 2047 ∧
      expField (truncateM 24 0x3C30000000000001) = expField 0x3C30000000000001 :=
  ⟨by decide, by decide, by decide, by decide,
    (truncateM_never_flushes_normal 24 0x3C30000000000001 (by decide) (by decide) (by decide)
      (by decide)).2.1⟩

/-! ## Claims on shapes, the image input and class selection -/

/-- C11 (counterexample): the pixel byte 0 is mapped to exactly 1, which is not strictly
inside (0,1). -/
theorem pixelValue_counterexample :
    (0 : Nat) ≤ 255 ∧ dataFromImage [0] = [1] ∧ ¬ (pixelValue 0 < 1) := by
  have h : pixelValue 0 = 1 := by unfold pixelValue; norm_num
  refine ⟨by decide, ?_, ?_⟩
  · simp [dataFromImage, h]
  · rw [h]; exact lt_irrefl 1

/-- C11 (amended): the normalisation of dataFromImage maps each byte p in 0..255 to
((255 - p)/255) * 0.999 + 0.001, and every mapped value lies in [0.001, 1]: it is bounded
away from 0, and it is below 1 except for p = 0, which is mapped to exactly 1 (over exact
rational arithmetic). -/
theorem dataFromImage_range (pix : List Nat) (hpix : ∀ p ∈ pix, p ≤ 255) :
    (dataFromImage pix).length = pix.length ∧
      (∀ i (h : i < pix.length), (dataFromImage pix)[i]? =
        some ((255 - ((pix[i] : Nat) : ℚ)) / 255 * (999 / 1000) + 1 / 1000)) ∧
      (∀ p ∈ pix, 1 / 1000 ≤ pixelValue p ∧ 0 < pixelValue p ∧ pixelValue p ≤ 1 ∧
        (pixelValue p < 1 ↔ p ≠ 0)) := by
  refine ⟨by simp [dataFromImage], fun i h => ?_, fun p hp => ?_⟩
  · have hm : pix[i] ∈ pix := List.getElem_mem _
    simp only [dataFromImage, List.getElem?_map, List.getElem?_eq_getElem h, Option.map_some']
    rw [pixelValue_eq _ (hpix _ hm)]
  · have h255 := hpix p hp
    rw [pixelValue_eq p h255]
    have h1 : (0 : ℚ) ≤ (p : ℚ) := Nat.cast_nonneg p
    have h2 : (p : ℚ) ≤ 255 := by exact_mod_cast h255
    refine ⟨by linarith, by linarith, by linarith, ?_⟩
    constructor
    · intro hlt hp0
      rw [hp0] at hlt
      norm_num at hlt
    · intro hne
      have hpos : (0 : ℚ) < (p : ℚ) := by
        exact_mod_cast Nat.pos_of_ne_zero hne
      linarith

/-- C11 (witness): the bytes 0, 128 and 255. -/
theorem dataFromImage_range_witness :
    (∀ p ∈ ([0, 128, 255] : List Nat), p ≤ 255) ∧
      (dataFromImage [0, 128, 255]).length = ([0, 128, 255] : List Nat).length :=
  ⟨by decide, (dataFromImage_range [0, 128, 255] (by decide)).1⟩

/-- C13: on every well-formed network, input of length inputs and target of length outputs,
Train succeeds and leaves hiddenWeights hiddens x inputs and outputWeights outputs x hiddens,
with inputs, hiddens, outputs and learningRate unchanged; the network stays well-formed. -/
theorem Train_preserves_dims (F : FloatOps) (nb : Nat) (net : Network) (x t : List Nat)
    (hnet : net.WF) (hx : (x.length : Int) = net.inputs)
    (ht : (t.length : Int) = net.outputs) :
    ∃ net2, Network.Train F nb net x t = .ok net2 ∧
      net2.hiddenWeights.rows = net.hiddenWeights.rows ∧
      net2.hiddenWeights.cols = net.hiddenWeights.cols ∧
      net2.outputWeights.rows = net.outputWeights.rows ∧
      net2.outputWeights.cols = net.outputWeights.cols ∧
      (net2.hiddenWeights.rows : Int) = net.hiddens ∧
      (net2.hiddenWeights.cols : Int) = net.inputs ∧
      (net2.outputWeights.rows : Int) = net.outputs ∧
      (net2.outputWeights.cols : Int) = net.hiddens ∧
      net2.inputs = net.inputs ∧ net2.hiddens = net.hiddens ∧ net2.outputs = net.outputs ∧
      net2.learningRate = net.learningRate ∧ net2.WF := by
  refine ⟨trainSpec F nb net x t, Train_eq_aux F nb net x t hnet hx ht, rfl, rfl, rfl, rfl,
    hnet.2.2.1, hnet.2.2.2.1, hnet.2.2.2.2.1, hnet.2.2.2.2.2, rfl, rfl, rfl, rfl,
    trainSpec_WF F nb net x t hnet hx ht⟩

/-- C13 (witness): one step of the 2-2-1 network with all weights 0.5. -/
theorem Train_preserves_dims_witness :
    toyNet.WF ∧
      ((([0x3FE0000000000000, 0x3FB999999999999A] : List Nat).length : Int) = toyNet.inputs) ∧
      ((([0x3FF0000000000000] : List Nat).length : Int) = toyNet.outputs) ∧
      ∃ net2, Network.Train toyOps 24 toyNet [0x3FE0000000000000, 0x3FB999999999999A]
          [0x3FF0000000000000] = .ok net2 ∧
        net2.hiddenWeights.rows = 2 ∧ net2.hiddenWeights.cols = 2 ∧
        net2.outputWeights.rows = 1 ∧ net2.outputWeights.cols = 2 := by
  obtain ⟨net2, h, a, b, c, d, -⟩ :=
    Train_preserves_dims toyOps 24 toyNet [0x3FE0000000000000, 0x3FB999999999999A]
      [0x3FF0000000000000] toyNet_WF rfl rfl
  exact ⟨toyNet_WF, rfl, rfl, net2, h, a, b, c, d⟩

/-- C14: for every m x k matrix a and k2 x n matrix b (m and n positive), dot(a, b) returns
an m x n matrix holding m * n values when k = k2, and fails with the shape-mismatch error
when k and k2 differ. -/
theorem dot_shape_contract (F : FloatOps) (a b : Dense) (hr : a.rows ≠ 0) (hc : b.cols ≠ 0) :
    (a.cols = b.rows →
      ∃ o, dot F a b = .ok o ∧ o.rows = a.rows ∧ o.cols = b.cols ∧
        o.data.length = a.rows * b.cols) ∧
    (a.cols ≠ b.rows → dot F a b = .error .ErrShape) := by
  refine ⟨fun h => ⟨Dense.matMul F a b, dot_eq F a b hr hc h, rfl, rfl, ?_⟩,
    fun h => dot_mismatch F a b hr hc h⟩
  exact (WF_matMul F a b hr hc).2.2

/-- C14 (witness): the 1 x 2 output weights of the 2-2-1 network against its 2 x 2 hidden
weights. -/
theorem dot_shape_contract_witness :
    toyNet.outputWeights.rows ≠ 0 ∧ toyNet.hiddenWeights.cols ≠ 0 ∧
      ∃ o, dot toyOps toyNet.outputWeights toyNet.hiddenWeights = .ok o ∧ o.rows = 1 ∧
        o.cols = 2 := by
  obtain ⟨o, h, a, b, -⟩ :=
    (dot_shape_contract toyOps toyNet.outputWeights toyNet.hiddenWeights (by decide)
      (by decide)).1 (by decide)
  exact ⟨by decide, by decide, o, h, a, b⟩

/-- C16: for every width bits below 2^63 and every normal finite x with unbiased exponent at
least bits - 52, the magnitude of truncateM(x) is floor(|x| / 2^(bits-52)) * 2^(bits-52)
and the result has the sign bit of x: truncation toward zero onto the multiples of
2^(bits-52), whatever the exponent. -/
theorem truncateM_fixed_point_quantiser (nb x : Nat) (hnb : nb < 2 ^ 63) (hx : x < 2 ^ 64)
    (h0 : expField x ≠ 0) (h1 : expField x ≠ 2047) (hE : (nb : Int) - 52 ≤ unbExp x) :
    |toRat (truncateM nb x)| =
        ((⌊|toRat x| / (2 : ℚ) ^ ((nb : ℤ) - 52)⌋ : ℤ) : ℚ) * (2 : ℚ) ^ ((nb : ℤ) - 52) ∧
      signBit (truncateM nb x) = signBit x :=
  ⟨truncateM_grid_aux nb x hnb hx h0 h1 hE,
    (truncateM_normal_fields nb x (by omega) hx h0 h1).1⟩

/-- C16 (witness): width 24 at -(1 + 2^-28 + 2^-52), unbiased exponent 0 >= 24 - 52. -/
theorem truncateM_fixed_point_quantiser_witness :
    (24 : Nat) < 2 ^ 63 ∧ 0xBFF0000001000001 < 2 ^ 64 ∧ expField 0xBFF0000001000001 ≠ 0 ∧
      expField 0xBFF0000001000001 ≠ 2047 ∧
      ((24 : Nat) : Int) - 52 ≤ unbExp 0xBFF0000001000001 ∧
      signBit (truncateM 24 0xBFF0000001000001) = signBit 0xBFF0000001000001 :=
  ⟨by decide, by decide, by decide, by decide, by decide,
    (truncateM_fixed_point_quantiser 24 0xBFF0000001000001 (by decide) (by decide)
      (by decide) (by decide) (by decide)).2⟩

/-- C17: for every width below 2^63 and all finite x <= y (exact values, zeros and
subnormals included), truncateM(x) <= truncateM(y). -/
theorem truncateM_monotone (nb x y : Nat) (hnb : nb < 2 ^ 63) (hx : x < 2 ^ 64)
    (hy : y < 2 ^ 64) (fx : expField x ≠ 2047) (fy : expField y ≠ 2047)
    (h : toRat x ≤ toRat y) : toRat (truncateM nb x) ≤ toRat (truncateM nb y) :=
  truncateM_mono_aux nb x y (by omega) hx hy fx fy h

/-- C17 (witness): width 24 at -1.5 <= 1 + 2^-28. -/
theorem truncateM_monotone_witness :
    (24 : Nat) < 2 ^ 63 ∧ 0xBFF8000000000000 < 2 ^ 64 ∧ 0x3FF0000001000000 < 2 ^ 64 ∧
      expField 0xBFF8000000000000 ≠ 2047 ∧ expField 0x3FF0000001000000 ≠ 2047 ∧
      toRat 0xBFF8000000000000 ≤ toRat 0x3FF0000001000000 ∧
      toRat (truncateM 24 0xBFF8000000000000) ≤ toRat (truncateM 24 0x3FF0000001000000) := by
  have h : toRat 0xBFF8000000000000 ≤ toRat 0x3FF0000001000000 := by
    rw [toRat_eq_mag, toRat_eq_mag]
    have s1 : signBit 0xBFF8000000000000 = 1 := by decide
    have s2 : ¬ signBit 0x3FF0000001000000 = 1 := by decide
    rw [if_pos s1, if_neg s2]
    have hc : (0 : ℚ) ≤ 2 ^ (-1074 : ℤ) := by positivity
    have n1 : (0 : ℚ) ≤ (mag 0xBFF8000000000000 : ℚ) * 2 ^ (-1074 : ℤ) :=
      mul_nonneg (Nat.cast_nonneg _) hc
    have n2 : (0 : ℚ) ≤ (mag 0x3FF0000001000000 : ℚ) * 2 ^ (-1074 : ℤ) :=
      mul_nonneg (Nat.cast_nonneg _) hc
    linarith
  exact ⟨by decide, by decide, by decide, by decide, by decide, h,
    truncateM_monotone 24 0xBFF8000000000000 0x3FF0000001000000 (by decide) (by decide)
      (by decide) (by decide) (by decide) h⟩

end Mlp
